import Mathlib

/-!
# Verification of the Algotext lab07 regex-to-NFA engine

Shallow embedding of `src/lab07/automaton/` (state.py, valid_characters.py,
regex_iterator.py, automaton.py).  Python dicts are modelled as insertion-ordered
association lists (`PyDict`), Python sets of ints as `Finset ℤ`, the graph of
`State` objects as an arena (`Graph`) indexed by allocation order, and the
`defaultdict` transition tables of `State` as label-keyed association lists.
Loops whose termination Python does not guarantee syntactically (the worklist in
`Automaton.__closure`, the rewriting loop in
`RegexIterator.__convert_to_standard_re_helper`, the recursive-descent parser)
take an explicit fuel argument and return `Option`/`none` on exhaustion.
-/

set_option maxRecDepth 10000
set_option linter.unusedSectionVars false

namespace Algotext

/-! ## Insertion-ordered dictionaries (Python `dict`)

A Python `dict` iterates keys in first-insertion order; assigning to an existing
key updates the value in place (keeping its position), assigning to a fresh key
appends it.  We model this with a plain association list. -/

abbrev PyDict (α β : Type _) := List (α × β)

namespace PyDict

variable {α β : Type _} [DecidableEq α]

/-- Embeds `d[k]` lookup (`None` when absent, the caller guards with `in`). -/
def alookup : PyDict α β → α → Option β
  | [], _ => none
  | (k, v) :: rest, a => if k = a then some v else alookup rest a

/-- Embeds `k in d`. -/
def hasKey (d : PyDict α β) (a : α) : Bool := (alookup d a).isSome

/-- Embeds `d[k] = v`: update in place when present, append when fresh. -/
def pySet : PyDict α β → α → β → PyDict α β
  | [], a, b => [(a, b)]
  | (k, v) :: rest, a, b =>
      if k = a then (k, b) :: rest else (k, v) :: pySet rest a b

/-- Embeds `list(d.keys())` in insertion order. -/
def keys (d : PyDict α β) : List α := d.map Prod.fst

@[simp] theorem alookup_nil (a : α) : alookup ([] : PyDict α β) a = none := rfl

@[simp] theorem keys_nil : keys ([] : PyDict α β) = [] := rfl

@[simp] theorem keys_cons (k : α) (v : β) (d : PyDict α β) :
    keys ((k, v) :: d) = k :: keys d := rfl

theorem alookup_cons (k : α) (v : β) (d : PyDict α β) (a : α) :
    alookup ((k, v) :: d) a = if k = a then some v else alookup d a := rfl

theorem alookup_isSome_iff_mem_keys (d : PyDict α β) (a : α) :
    (alookup d a).isSome ↔ a ∈ keys d := by
  induction d with
  | nil => simp
  | cons hd tl ih =>
      obtain ⟨k, v⟩ := hd
      by_cases h : k = a
      · simp [alookup, h]
      · have : ¬ a = k := fun hc => h hc.symm
        simp [alookup, h, ih, this]

theorem alookup_eq_none_of_not_mem_keys {d : PyDict α β} {a : α}
    (h : a ∉ keys d) : alookup d a = none := by
  cases hh : alookup d a with
  | none => rfl
  | some v =>
      exact absurd ((alookup_isSome_iff_mem_keys d a).1 (by simp [hh])) h

theorem keys_pySet (d : PyDict α β) (a : α) (b : β) :
    keys (pySet d a b) = if a ∈ keys d then keys d else keys d ++ [a] := by
  induction d with
  | nil => simp [pySet]
  | cons hd tl ih =>
      obtain ⟨k, v⟩ := hd
      by_cases h : k = a
      · simp [pySet, h]
      · have hne : ¬ a = k := fun hc => h hc.symm
        simp [pySet, h, ih, hne]
        by_cases hm : a ∈ keys tl <;> simp [hm]

theorem alookup_pySet (d : PyDict α β) (a : α) (b : β) (x : α) :
    alookup (pySet d a b) x = if a = x then some b else alookup d x := by
  induction d with
  | nil => simp [pySet, alookup]
  | cons hd tl ih =>
      obtain ⟨k, v⟩ := hd
      by_cases h : k = a
      · subst h
        by_cases hx : k = x <;> simp [pySet, alookup, hx]
      · by_cases hx : k = x
        · subst hx
          have : ¬ a = k := fun hc => h hc.symm
          simp [pySet, alookup, h, this]
        · simp [pySet, alookup, h, hx, ih]

theorem keys_nodup_pySet {d : PyDict α β} (hd : (keys d).Nodup) (a : α) (b : β) :
    (keys (pySet d a b)).Nodup := by
  rw [keys_pySet]
  by_cases h : a ∈ keys d
  · simpa [h] using hd
  · simp only [h, if_false]
    refine List.Nodup.append hd (by simp) ?_
    intro x hx hax
    simp only [List.mem_singleton] at hax
    exact h (hax ▸ hx)

end PyDict

/-! ## Transition labels

A `State`'s transition table maps *labels* to lists of target states.  A label in
the source is a Python string: the empty string (`State.EPSILON`), a single
character, or a backslash escape such as `"\d"` (built by
`Automaton.__factor` as `'\\' + next_char`). -/

inductive Lab where
  | eps : Lab                 -- `State.EPSILON = ''`
  | ch (c : Char) : Lab       -- a one-character label (includes `'.'`, the wildcard)
  | esc (c : Char) : Lab      -- `'\\' + c`, e.g. `"\d"`, `"\w"`, `"\a"`
  deriving DecidableEq, Repr

/-! ## Character classes (`valid_characters.py`) -/

namespace ValidCharacters

/-- Embeds `DIGITS_SET = set(string.digits)`. -/
def inDigitsSet (c : Char) : Bool := '0' ≤ c && c ≤ '9'

/-- Embeds `ASCII_SET = set(string.ascii_letters)`. -/
def inAsciiSet (c : Char) : Bool := ('a' ≤ c && c ≤ 'z') || ('A' ≤ c && c ≤ 'Z')

/-- Embeds `VALID_SYMBOLS = ASCII_SET | DIGITS_SET | {SPACE, ANY_SYMBOL}`. -/
def inValidSymbols (c : Char) : Bool :=
  inAsciiSet c || inDigitsSet c || c = ' ' || c = '.'

/-- Embeds `PARENTHESES = set("()") | set("[]")`. -/
def inParentheses (c : Char) : Bool := c = '(' || c = ')' || c = '[' || c = ']'

/-- Embeds `META_SYMBOLS = {'*', '?', '+'}`. -/
def inMetaSymbols (c : Char) : Bool := c = '*' || c = '?' || c = '+'

/-- Embeds `CLASS_SYMBOLS = {'d', 'w', 'a'}`. -/
def inClassSymbols (c : Char) : Bool := c = 'd' || c = 'w' || c = 'a'

/-- Embeds `ALL_SYMBOLS`: union of the above plus `'\\'` and `'.'`. -/
def inAllSymbols (c : Char) : Bool :=
  inValidSymbols c || inParentheses c || inMetaSymbols c || inClassSymbols c || c = '\\' || c = '.'

end ValidCharacters

/-! ## Pattern validation (`RegexIterator.__regex_correct`)

The source returns `(False, message)` on rejection; every message except the
final unbalanced-parentheses one interpolates the offending 0-based position.
We model the outcome as `Option RErr` (`none` = accepted) with one constructor
per message. -/

inductive RErr where
  | invalidInSquare (pos : Nat)   -- "Invalid symbol in parentheses [] at pos {i}"
  | invalidSymbol (pos : Nat)     -- "Invalid symbol at pos {i}"
  | emptyRound (pos : Nat)        -- "Empty parentheses () at pos {i - 1}"
  | emptySquare (pos : Nat)       -- "Empty parentheses [] at pos {i - 1}"
  | badBackslash (pos : Nat)      -- "Character \ not followed by valid class symbol at pos {i}"
  | metaRepeat (pos : Nat)        -- "Repetition meta symbols in a row at pos {i}"
  | metaMisuse (pos : Nat)        -- "Invalid use of symbol at pos {i}"
  | unbalanced                    -- "Some parentheses are not enclosed" (no position)
  deriving DecidableEq, Repr

/-- The 0-based position interpolated into the error message, when there is one. -/
def RErr.errPos : RErr → Option Nat
  | .invalidInSquare p => some p
  | .invalidSymbol p => some p
  | .emptyRound p => some p
  | .emptySquare p => some p
  | .badBackslash p => some p
  | .metaRepeat p => some p
  | .metaMisuse p => some p
  | .unbalanced => none

namespace Validate

open ValidCharacters

/-- Loop state of `__regex_correct`: the two bracket counters and flags. -/
structure St where
  round : Int
  square : Int
  inSquare : Bool
  roundEmpty : Bool
  squareEmpty : Bool

/-- One iteration of the `for i, letter in enumerate(regex)` loop.  `regex` is the
whole pattern (used for the `regex[i+1]` / `regex[i-1]` peeks). -/
def stepChar (regex : List Char) (st : St) (i : Nat) (letter : Char) :
    Except RErr St := do
  let roundEmpty := if st.roundEmpty && letter ≠ ')' then false else st.roundEmpty
  let squareEmpty := if st.squareEmpty && letter ≠ ']' then false else st.squareEmpty
  if st.inSquare && !inValidSymbols letter && letter ≠ ']' then
    throw (.invalidInSquare i)
  if !inAllSymbols letter then
    throw (.invalidSymbol i)
  let st : St := { st with roundEmpty := roundEmpty, squareEmpty := squareEmpty }
  let st : St := if letter = '(' then
      { st with roundEmpty := true, round := st.round + 1 } else st
  let st : St ← if letter = ')' then
      if st.roundEmpty then throw (.emptyRound (i - 1))
      else pure { st with round := st.round - 1 }
    else pure st
  let st : St := if letter = '[' then
      { st with squareEmpty := true, inSquare := true, square := st.square + 1 } else st
  let st : St ← if letter = ']' then
      if st.squareEmpty then throw (.emptySquare (i - 1))
      else pure { st with inSquare := false, square := st.square - 1 }
    else pure st
  if letter = '\\' then
    -- "if len(regex) == i + 1 or regex[i+1] not in CLASS_SYMBOLS"
    if regex.length = i + 1 ||
        !inClassSymbols ((regex.drop (i + 1)).headD ' ') then
      throw (.badBackslash i)
    else pure st
  else if inMetaSymbols letter &&
      ((decide (regex.length ≠ i + 1) &&
        inMetaSymbols ((regex.drop (i + 1)).headD ' ')) || decide (i = 0)) then
    throw (.metaRepeat i)
  else
    -- the final, non-elif meta-placement check
    if inMetaSymbols letter && decide (0 < i) &&
        (!inValidSymbols ((regex.drop (i - 1)).headD ' ') &&
          decide ((regex.drop (i - 1)).headD ' ' ≠ ')') &&
          decide ((regex.drop (i - 1)).headD ' ' ≠ ']')) then
      throw (.metaMisuse i)
    else pure st

def runLoop (regex : List Char) : St → Nat → List Char → Except RErr St
  | st, _, [] => pure st
  | st, i, c :: rest => do runLoop regex (← stepChar regex st i c) (i + 1) rest

/-- Embeds `RegexIterator.__regex_correct(regex)`: `none` when accepted, `some e` when
rejected with error `e`. -/
def regexCorrect (regex : List Char) : Option RErr :=
  match runLoop regex ⟨0, 0, false, false, false⟩ 0 regex with
  | .error e => some e
  | .ok st =>
      -- "return (parentheses_square == parentheses_round == 0, 'Some parentheses…')"
      if st.square = st.round ∧ st.round = 0 then none else some .unbalanced

end Validate

/-- Embeds `validate` applied to a pattern given as a Lean string. -/
def validate (raw : String) : Option RErr := Validate.regexCorrect raw.toList

/-! ## Canonicalization (`RegexIterator.__convert_to_standard_re_helper`)

Rewrites `[...]`, `+` and `?` into the four canonical operators.  Python strings
become `List Char`; the `parenthesis_begin` dict becomes a `PyDict Nat Nat`.
The `while` loops and the recursion on nested groups take fuel. -/

namespace Convert

/-- Embeds `text[a:b]` for `0 ≤ a ≤ b` (the only shapes the source produces). -/
def pySliceNat (text : List Char) (a b : Nat) : List Char := (text.take b).drop a

/-- Embeds `"(" + "+".join(list(cs)) + ")"`. -/
def joinPlus (cs : List Char) : List Char := '(' :: List.intersperse '+' cs ++ [')']

/-- The `while (text[j] != ']')` scan: index of the first `']'` at or after
`start`, `none` when the scan runs off the end (Python `IndexError`). -/
def findClose (text : List Char) (start : Nat) : Option Nat :=
  ((text.drop start).findIdx? (· = ']')).map (start + ·)

/-- The `while (num_of_parentheses)` scan: starting at position `j` with open
count `num`, returns the position one past the matching `')'`. -/
def findParenEnd (text : List Char) : Nat → Nat → Nat → Option Nat
  | 0, _, _ => none
  | fuel + 1, j, num =>
      if num = 0 then some j
      else if j < text.length then
        let c := text.getD j ' '
        let num' := if c = '(' then num + 1 else if c = ')' then num - 1 else num
        findParenEnd text fuel (j + 1) num'
      else none

/-- Embeds `__convert_to_standard_re_helper(text)`.  The outer `while (i < len(text))`
loop and the recursive call on a nested group both consume fuel.  Index
arithmetic mirrors the source, with `i - 1 + len(pattern)` rendered as
`i + pattern.length - 1` so that Nat subtraction agrees with Python for the
bracket-at-position-0 case. -/
def convGo : Nat → List Char → PyDict Nat Nat → Nat → Option (List Char × PyDict Nat Nat)
  | 0, _, _, _ => none
  | fuel + 1, text, pb, i =>
      if i < text.length then
        let c := text.getD i ' '
        if c = '[' then
          match findClose text (i + 1) with
          | none => none
          | some j =>
              let pattern := joinPlus (pySliceNat text (i + 1) j)
              let text' := text.take i ++ pattern ++ text.drop (j + 1)
              let i' := i + pattern.length - 1
              convGo fuel text' (pb.pySet i' i) (i' + 1)
        else if c = '(' then
          match findParenEnd text (text.length + 1) (i + 1) 1 with
          | none => none
          | some j =>
              match convGo fuel (pySliceNat text (i + 1) (j - 1)) [] 0 with
              | none => none
              | some (pattern, parBegs) =>
                  let pb' := parBegs.foldl
                    (fun d eb => d.pySet (eb.1 + i + 1) (eb.2 + i + 1)) pb
                  let text' := text.take (i + 1) ++ pattern ++ text.drop (j - 1)
                  let i' := i + 1 + pattern.length
                  convGo fuel text' (pb'.pySet i' i) (i' + 1)
        else if c = '+' then
          -- ONE_CLOSURE: X+ → XX*
          let beg0 := (PyDict.alookup pb (i - 1)).getD (i - 1)
          let beg := if 0 < i - 1 ∧ text.getD (i - 2) ' ' = '\\' then beg0 - 1 else beg0
          let pattern := pySliceNat text beg i
          let text' := text.take beg ++ pattern ++ pattern ++ ['*'] ++ text.drop (i + 1)
          convGo fuel text' pb (i + pattern.length + 1)
        else if c = '?' then
          -- ONE_OR_NONE: X? → (X+?)  (no backslash adjustment in the source)
          let beg := (PyDict.alookup pb (i - 1)).getD (i - 1)
          let pattern := pySliceNat text beg i
          let text' := text.take beg ++ '(' :: pattern ++ ['+', '?', ')'] ++ text.drop (i + 1)
          convGo fuel text' pb (beg + pattern.length + 3 + 1)
        else convGo fuel text pb (i + 1)
      else some (text, pb)

end Convert

/-- Embeds `RegexIterator.__convert_to_standard_re` on an already-validated pattern:
`self.regex = self.__convert_to_standard_re_helper(self.regex)[0]`. -/
def convertToStandardRe (fuel : Nat) (text : List Char) : Option (List Char) :=
  (Convert.convGo fuel text [] 0).map Prod.fst

/-- Embeds `RegexIterator.__init__(regex)`: reject the empty pattern, validate, then
canonicalize; returns the canonical pattern held by the iterator. -/
def regexIteratorInit (fuel : Nat) (raw : List Char) : Option (List Char) :=
  if raw = [] then none           -- ValueError("Empty regex.")
  else match Validate.regexCorrect raw with
    | some _ => none              -- ValueError("Regular expression invalid: …")
    | none => convertToStandardRe fuel raw

/-! ## The state graph (`state.py`)

Python `State` objects form a heap-allocated graph; we model the heap as an
arena (`Graph`), a list of transition tables indexed by allocation order.  A
transition table is the `defaultdict(list)` of `State.trans`, mapping labels to
target-state lists in label-insertion order. -/

abbrev StTable := PyDict Lab (List Nat)
abbrev Graph := List StTable

/-- Embeds `self.trans` of state `s` (out-of-range reads never occur on executed paths). -/
def stTable (g : Graph) (s : Nat) : StTable := g.getD s []

/-- Embeds `label in state` (`State.__contains__`): no mutation. -/
def hasLab (g : Graph) (s : Nat) (l : Lab) : Bool :=
  (PyDict.alookup (stTable g s) l).isSome

/-- Embeds `state.get(label, [])` (`State.get` checks membership first): no mutation. -/
def labTargets (g : Graph) (s : Nat) (l : Lab) : List Nat :=
  (PyDict.alookup (stTable g s) l).getD []

/-- Embeds `state[label]` (`State.__getitem__`): a *defaultdict* read, which inserts the
key with an empty list when absent.  Returns the target list and the (possibly
mutated) graph. -/
def getItemD (g : Graph) (s : Nat) (l : Lab) : List Nat × Graph :=
  match PyDict.alookup (stTable g s) l with
  | some ts => (ts, g)
  | none => ([], g.set s (stTable g s ++ [(l, [])]))

/-- Embeds `state[label] = target` (`State.__setitem__`: `self.trans[key] += [value]`). -/
def addTransT : StTable → Lab → Nat → StTable
  | [], l, v => [(l, [v])]
  | (k, ts) :: rest, l, v =>
      if k = l then (k, ts ++ [v]) :: rest else (k, ts) :: addTransT rest l v

def addEdge (g : Graph) (s : Nat) (l : Lab) (v : Nat) : Graph :=
  g.set s (addTransT (stTable g s) l v)

/-- Embeds `State()`: allocate a fresh state. -/
def newState (g : Graph) : Graph × Nat := (g ++ [[]], g.length)

/-- An automaton fragment: the arena plus its `initial`/`final` state ids. -/
structure Auto where
  g : Graph
  initial : Nat
  final : Nat
  deriving DecidableEq, Repr

/-- Embeds `Automaton.__init__(letter)`: two fresh states and one transition. -/
def automatonInit (g : Graph) (letter : Lab) : Graph × Nat × Nat :=
  let (g1, i) := newState g
  let (g2, f) := newState g1
  (addEdge g2 i letter f, i, f)

/-! ## Thompson combinators (`Automaton.__perform_*`, the `copy=False` variants
used by the parser; `deepcopy` never runs on that path). -/

/-- Embeds `Automaton.__perform_star(automaton, copy=False)`.  Note the third epsilon
edge: `old_final[EPSILON] = automaton.initial` targets the *new* initial state
(reassigned two lines earlier), not the old one. -/
def performStar (g : Graph) (a : Nat × Nat) : Graph × (Nat × Nat) :=
  let (g1, ni) := newState g
  let (g2, nf) := newState g1
  let g3 := addEdge g2 ni .eps a.1       -- automaton.initial[EPSILON] = old_initial
  let g4 := addEdge g3 ni .eps nf        -- automaton.initial[EPSILON] = automaton.final
  let g5 := addEdge g4 a.2 .eps ni       -- old_final[EPSILON] = automaton.initial (NEW)
  let g6 := addEdge g5 a.2 .eps nf       -- old_final[EPSILON] = automaton.final
  (g6, (ni, nf))

/-- Embeds `Automaton.__perform_concatenation(aut1, aut2, copy_fst=False, copy_snd=False)`. -/
def performConcatenation (g : Graph) (a1 a2 : Nat × Nat) : Graph × (Nat × Nat) :=
  (addEdge g a1.2 .eps a2.1, (a1.1, a2.2))

/-- Embeds `Automaton.__perform_alternative(aut1, aut2, copy_fst=False, copy_snd=False)`. -/
def performAlternative (g : Graph) (a1 a2 : Nat × Nat) : Graph × (Nat × Nat) :=
  let (g1, ni) := newState g
  let (g2, nf) := newState g1
  let g3 := addEdge g2 ni .eps a1.1      -- automaton1.initial[EPSILON] = old_initial
  let g4 := addEdge g3 ni .eps a2.1      -- automaton1.initial[EPSILON] = automaton2.initial
  let g5 := addEdge g4 a1.2 .eps nf      -- old_final[EPSILON] = automaton1.final
  let g6 := addEdge g5 a2.2 .eps nf      -- automaton2.final[EPSILON] = automaton1.final
  (g6, (ni, nf))

/-! ## Cursor (`RegexIterator.__next__` / `next_char`) -/

/-- Embeds `END_OF_STRING = chr(0)`. -/
def endOfString : Char := Char.ofNat 0

structure RIt where
  regex : List Char
  idx : Nat
  char : Char
  deriving Repr

def RIt.nextChar (r : RIt) : RIt :=
  if h : r.idx < r.regex.length then
    { r with char := r.regex.get ⟨r.idx, h⟩, idx := r.idx + 1 }
  else { r with char := endOfString }

/-! ## Recursive-descent parser (`Automaton.__expr/__term/__factor`)

Mutually recursive on fuel; each call strictly decreases it. -/

mutual

/-- Embeds `Automaton.__expr`. -/
def exprP : Nat → Graph → RIt → Option (Graph × (Nat × Nat) × RIt)
  | 0, _, _ => none
  | fuel + 1, g, r =>
      match termP fuel g r with
      | none => none
      | some (g, a, r) => exprLoop fuel g a r

/-- the `while (regex.char == STD_SUM)` loop of `__expr`. -/
def exprLoop : Nat → Graph → (Nat × Nat) → RIt → Option (Graph × (Nat × Nat) × RIt)
  | 0, _, _, _ => none
  | fuel + 1, g, a, r =>
      if r.char = '+' then
        match termP fuel g r.nextChar with
        | none => none
        | some (g, a2, r) =>
            let (g, a') := performAlternative g a a2
            exprLoop fuel g a' r
      else some (g, a, r)

/-- Embeds `Automaton.__term`. -/
def termP : Nat → Graph → RIt → Option (Graph × (Nat × Nat) × RIt)
  | 0, _, _ => none
  | fuel + 1, g, r =>
      match factorP fuel g r with
      | none => none
      | some (g, a, r) => termLoop fuel g a r

/-- the `while (regex.char in VALID_SYMBOLS or '(' or '\\')` loop of `__term`. -/
def termLoop : Nat → Graph → (Nat × Nat) → RIt → Option (Graph × (Nat × Nat) × RIt)
  | 0, _, _, _ => none
  | fuel + 1, g, a, r =>
      if ValidCharacters.inValidSymbols r.char || r.char = '(' || r.char = '\\' then
        match factorP fuel g r with
        | none => none
        | some (g, a2, r) =>
            let (g, a') := performConcatenation g a a2
            termLoop fuel g a' r
      else some (g, a, r)

/-- Embeds `Automaton.__factor`. -/
def factorP : Nat → Graph → RIt → Option (Graph × (Nat × Nat) × RIt)
  | 0, _, _ => none
  | fuel + 1, g, r =>
      let atom : Option (Graph × (Nat × Nat) × RIt) :=
        if r.char = '\\' then
          -- letter = regex.char; next_char; letter += regex.char
          let r1 := r.nextChar
          let (g', i, f) := automatonInit g (.esc r1.char)
          some (g', (i, f), r1.nextChar)
        else if r.char = '?' then      -- STD_EPSILON
          let (g', i, f) := automatonInit g .eps
          some (g', (i, f), r.nextChar)
        else if ValidCharacters.inValidSymbols r.char then
          let (g', i, f) := automatonInit g (.ch r.char)
          some (g', (i, f), r.nextChar)
        else if r.char = '(' then
          match exprP fuel g r.nextChar with
          | none => none
          | some (g, a, r) =>
              let r := if r.char = ')' then r.nextChar else r
              some (g, a, r)
        else none                      -- raise Exception
      match atom with
      | none => none
      | some (g, a, r) =>
          if r.char = '*' then         -- STD_KLEENE
            let (g', a') := performStar g a
            some (g', a', r.nextChar)
          else some (g, a, r)

end

/-! ## Epsilon-cycle detection (`Automaton.__is_acyclic` and helpers) -/

/-- all targets of a state in the label order of `node.keys()`. -/
def allTargets (t : StTable) : List Nat := (t.map Prod.snd).flatten

/-- Embeds `Automaton.__bfs_generator`: BFS visit order from the initial state. -/
def bfsGen (g : Graph) : Nat → List Nat → List Nat → List Nat
  | 0, _, _ => []
  | _ + 1, [], _ => []
  | fuel + 1, n :: q, vis =>
      let step := (allTargets (stTable g n)).foldl
        (fun (p : List Nat × List Nat) t =>
          if t ∈ p.2 then p else (p.1 ++ [t], p.2 ++ [t])) (q, vis)
      n :: bfsGen g fuel step.1 step.2

mutual

/-- Embeds `Automaton.__has_epsilon_cycle(node, visited, processed)`: DFS over epsilon
edges, threading the two shared mutable sets. -/
def hasEpsCycle (g : Graph) : Nat → Nat → Finset Nat → Finset Nat →
    Option (Bool × Finset Nat × Finset Nat)
  | 0, _, _, _ => none
  | fuel + 1, node, visited, processed =>
      let neighbours := labTargets g node .eps      -- node.get(State.EPSILON, [])
      match hasEpsCycleLoop g fuel neighbours (insert node visited) processed with
      | none => none
      | some (true, v, p) => some (true, v, p)
      | some (false, v, p) => some (false, v, insert node p)

/-- the `for nbh in neighbours` loop of `__has_epsilon_cycle`. -/
def hasEpsCycleLoop (g : Graph) : Nat → List Nat → Finset Nat → Finset Nat →
    Option (Bool × Finset Nat × Finset Nat)
  | _, [], vis, proc => some (false, vis, proc)
  | 0, _ :: _, _, _ => none
  | fuel + 1, nbh :: rest, vis, proc =>
      if nbh ∉ proc then
        if nbh ∈ vis then some (true, vis, proc)
        else
          match hasEpsCycle g fuel nbh vis proc with
          | none => none
          | some (true, v, p) => some (true, v, p)
          | some (false, v, p) => hasEpsCycleLoop g fuel rest (insert nbh v) p
      else hasEpsCycleLoop g fuel rest vis proc

end

/-- the `for node in self.__bfs_generator()` loop of `__is_acyclic`. -/
def isAcyclicGo (g : Graph) : Nat → List Nat → Finset Nat → Finset Nat → Option Bool
  | _, [], _, _ => some true
  | 0, _ :: _, _, _ => none
  | fuel + 1, n :: rest, vis, proc =>
      if n ∉ proc then
        match hasEpsCycle g fuel n vis proc with
        | none => none
        | some (true, _, _) => some false
        | some (false, v, p) => isAcyclicGo g fuel rest v p
      else isAcyclicGo g fuel rest vis proc

/-- Embeds `Automaton.__is_acyclic`. -/
def isAcyclic (fuel : Nat) (a : Auto) : Option Bool :=
  isAcyclicGo a.g fuel (bfsGen a.g fuel [a.initial] [a.initial]) ∅ ∅

/-- Embeds `Automaton.build_from_regex(regex, check_correctness)`. -/
def buildFromRegex (fuel : Nat) (raw : String) (checkCorrectness : Bool) : Option Auto :=
  match regexIteratorInit fuel raw.toList with
  | none => none
  | some conv =>
      let r1 := RIt.nextChar ⟨conv, 0, endOfString⟩
      match exprP fuel [] r1 with
      | none => none
      | some (g, a, _) =>
          let auto : Auto := ⟨g, a.1, a.2⟩
          if checkCorrectness then
            match isAcyclic fuel auto with
            | some true => some auto
            | _ => none      -- epsilon-cycle Exception (or fuel exhaustion)
          else some auto

/-! ## Simulation (`Automaton.__closure`, `__trans`, `test_word`, `__matching`)

Marker sets (`{-1}`, `{i}`, `{0}`) are Python `set`s of ints: `Finset ℤ`.
Frontier dicts are `PyDict Nat (Finset ℤ)`.  The graph is threaded through every
function because `state[label]` is a defaultdict read (see `getItemD`). -/

/-- the two-branch dict update shared by `__closure`'s inner loop, `__trans`'s
result accumulation and `__matching`'s re-seeding: assign when the key is fresh,
union when it exists. -/
def upsertUnion (d : PyDict Nat (Finset ℤ)) (k : Nat) (S : Finset ℤ) :
    PyDict Nat (Finset ℤ) :=
  match PyDict.alookup d k with
  | some old => PyDict.pySet d k (old ∪ S)
  | none => d ++ [(k, S)]

/-- the `for next_state in state[EPSILON]` update loop, with `indexes_set`
captured once (`S`). -/
def upsertAll (d : PyDict Nat (Finset ℤ)) (S : Finset ℤ) (ts : List Nat) :
    PyDict Nat (Finset ℤ) :=
  ts.foldl (fun d t => upsertUnion d t S) d

/-- Embeds `Automaton.__closure` worklist.  Every epsilon target is re-enqueued
unconditionally, as in the source; termination therefore needs fuel. -/
def closureGo : Nat → Graph → PyDict Nat (Finset ℤ) → List Nat →
    Option (PyDict Nat (Finset ℤ) × Graph)
  | _, g, M, [] => some (M, g)
  | 0, _, _, _ :: _ => none
  | fuel + 1, g, M, s :: q =>
      let S := (PyDict.alookup M s).getD ∅         -- indexes_set = state_dict[state]
      if hasLab g s .eps then                      -- State.EPSILON in state
        let (ts, g') := getItemD g s .eps          -- state[State.EPSILON]
        closureGo fuel g' (upsertAll M S ts) (q ++ ts)
      else closureGo fuel g M q

/-- Embeds `Automaton.__closure(state_dict)`: seed the queue with the dict's keys. -/
def closure (fuel : Nat) (g : Graph) (M : PyDict Nat (Finset ℤ)) :
    Option (PyDict Nat (Finset ℤ) × Graph) :=
  closureGo fuel g M (PyDict.keys M)

/-- the `alternative_letter` computed by one `__trans` loop iteration:
initialized to the pre-mutation `letter0`, then overwritten by the three class
checks, which test the post-mutation `letter'`.  The word-class check
`letter in ValidCharacters.DIGITS_CLASS` is substring membership in the
two-character Python string `"\d"`: true exactly for `'\\'` and `'d'`. -/
def codeAlt (g : Graph) (s : Nat) (letter0 letter' : Char) : Lab :=
  let alt : Lab := .ch letter0                      -- alternative_letter = letter
  let alt := if hasLab g s (.esc 'd') && ValidCharacters.inDigitsSet letter'
    then Lab.esc 'd' else alt
  let alt := if hasLab g s (.esc 'w') &&
      (letter' = '\\' || letter' = 'd' || ValidCharacters.inAsciiSet letter')
    then Lab.esc 'w' else alt
  if hasLab g s (.esc 'a') && ValidCharacters.inAsciiSet letter'
    then Lab.esc 'a' else alt

/-- Embeds `Automaton.__trans(state_dict, letter)`: the `for state in state_dict.keys()`
loop.  `letter` is a *function-local* that the loop body mutates (`letter =
ANY_SYMBOL`), so it is threaded through the recursion — the source of the
order-dependence analysed in the step theorems. -/
def transGo : Graph → Char → PyDict Nat (Finset ℤ) → List (Nat × Finset ℤ) →
    PyDict Nat (Finset ℤ) × Graph
  | g, _, acc, [] => (acc, g)
  | g, letter, acc, (s, idxs) :: rest =>
      let letter' := if hasLab g s (.ch '.') then '.' else letter  -- ANY_SYMBOL mutation
      let alt := codeAlt g s letter letter'
      if hasLab g s alt then                       -- alternative_letter in state
        let (ts, g') := getItemD g s alt           -- state[alternative_letter]
        transGo g' letter' (upsertAll acc idxs ts) rest
      else transGo g letter' acc rest

/-- Embeds `Automaton.__trans(state_dict, letter)`. -/
def trans (g : Graph) (M : PyDict Nat (Finset ℤ)) (letter : Char) :
    PyDict Nat (Finset ℤ) × Graph :=
  transGo g letter [] M

/-- the `for letter in word` loop of `test_word`. -/
def testWordGo (fuel : Nat) : Graph → PyDict Nat (Finset ℤ) → List Char →
    Option (PyDict Nat (Finset ℤ) × Graph)
  | g, M, [] => some (M, g)
  | g, M, c :: rest =>
      let (td, g1) := trans g M c
      match closure fuel g1 td with
      | none => none
      | some (M', g2) => testWordGo fuel g2 M' rest

/-- Embeds `Automaton.test_word(word)`, threading the graph. -/
def testWordT (fuel : Nat) (a : Auto) (word : List Char) : Option (Bool × Graph) :=
  match closure fuel a.g [(a.initial, {0})] with
  | none => none
  | some (M0, g0) =>
      match testWordGo fuel g0 M0 word with
      | none => none
      | some (M, g) => some (PyDict.hasKey M a.final, g)

def testWord (fuel : Nat) (a : Auto) (word : String) : Option Bool :=
  (testWordT fuel a word.toList).map Prod.fst

/-- Embeds `min(state_dict[self.final])`: minimum of a (nonempty on all executed paths)
marker set; the `0` default is never reached (Python would raise on `min(∅)`). -/
def minMarker (S : Finset ℤ) : ℤ := WithBot.unbot' 0 S.min

/-- Embeds `text[a : b]` for `0 ≤ a` (markers are ≥ -1, so `start_idx + 1 ≥ 0`). -/
def pySliceZ (text : List Char) (a b : ℤ) : List Char := (text.take b.toNat).drop a.toNat

/-- One iteration of the `for i, letter in enumerate(text)` loop of
`Automaton.__matching`: step, re-seed the initial state with marker `{i}`,
close, and optionally produce the recorded `(start_idx + 1, i + 1)` pair. -/
def matchStepCore (fuel : Nat) (a : Auto) (text : List Char) (g : Graph)
    (M : PyDict Nat (Finset ℤ)) (i : Nat) (c : Char) :
    Option (Graph × PyDict Nat (Finset ℤ) × Option (ℤ × ℤ)) :=
  let (td0, g1) := trans g M c
  let td := upsertUnion td0 a.initial {(i : ℤ)}
  match closure fuel g1 td with
  | none => none
  | some (M', g2) =>
      if PyDict.hasKey M' a.final then
        let startIdx := minMarker ((PyDict.alookup M' a.final).getD ∅)
        let wordToTest := pySliceZ text (startIdx + 1) ((i : ℤ) + 1)
        if wordToTest ≠ [] then
          match testWordT fuel ⟨g2, a.initial, a.final⟩ wordToTest with
          | none => none
          | some (b, g3) =>
              some (g3, M', if b then some (startIdx + 1, (i : ℤ) + 1) else none)
        else some (g2, M', none)
      else some (g2, M', none)

/-- the enumeration loop of `__matching`, accumulating `occurrences`. -/
def matchLoop (fuel : Nat) (a : Auto) (text : List Char) :
    Graph → PyDict Nat (Finset ℤ) → PyDict ℤ ℤ → List (Nat × Char) →
    Option (PyDict ℤ ℤ × Graph)
  | g, _, occ, [] => some (occ, g)
  | g, M, occ, (i, c) :: rest =>
      match matchStepCore fuel a text g M i c with
      | none => none
      | some (g', M', ev) =>
          let occ' := match ev with
            | some (s, e) => PyDict.pySet occ s e   -- occurrences[start_idx+1] = i+1
            | none => occ
          matchLoop fuel a text g' M' occ' rest

/-- Embeds `Automaton.__matching(text)`, threading the graph. -/
def matchingT (fuel : Nat) (a : Auto) (text : List Char) :
    Option (PyDict ℤ ℤ × Graph) :=
  match closure fuel a.g [(a.initial, {-1})] with
  | none => none
  | some (M0, g0) => matchLoop fuel a text g0 M0 [] text.enum

/-- Embeds `Automaton.matching(text)`: the returned list
`[(start, occurrences[start]) for start in occurrences.keys()]` is the
occurrence dict in key-insertion order. -/
def matching (fuel : Nat) (a : Auto) (text : String) : Option (List (ℤ × ℤ)) :=
  (matchingT fuel a text.toList).map Prod.fst

/-- the sequence of recording events `(start_idx + 1, i + 1)` in scan order —
the same loop as `matchLoop`, collecting the records instead of folding them
into the dict. -/
def eventsLoop (fuel : Nat) (a : Auto) (text : List Char) :
    Graph → PyDict Nat (Finset ℤ) → List (Nat × Char) →
    Option (List (ℤ × ℤ) × Graph)
  | g, _, [] => some ([], g)
  | g, M, (i, c) :: rest =>
      match matchStepCore fuel a text g M i c with
      | none => none
      | some (g', M', ev) =>
          match eventsLoop fuel a text g' M' rest with
          | none => none
          | some (evs, g'') => some (ev.toList ++ evs, g'')

/-- the recording events of `__matching(text)` in scan order. -/
def matchEvents (fuel : Nat) (a : Auto) (text : List Char) :
    Option (List (ℤ × ℤ)) :=
  match closure fuel a.g [(a.initial, {-1})] with
  | none => none
  | some (M0, g0) => (eventsLoop fuel a text g0 M0 text.enum).map Prod.fst

/-- compile + substring search, the composition the spec calls
`find_occurrences(compile(raw), text)`. -/
def findOccurrences (fuel : Nat) (raw text : String) : Option (List (ℤ × ℤ)) :=
  (buildFromRegex fuel raw true).bind fun a => matching fuel a text

/-- compile + whole-word test, the composition the spec calls
`full_match(compile(raw), word)`. -/
def fullMatchRe (fuel : Nat) (raw word : String) : Option Bool :=
  (buildFromRegex fuel raw true).bind fun a => testWord fuel a word

/-! ## Concrete-evaluation theorems (claims C1, C2, C4, C6) -/

set_option maxHeartbeats 4000000 in
/-- C1 counterexample: on the fragment compiled from `"ab*a"` and the text
`"xaabay"`, `find_occurrences` does *not* return `[(1, 5)]`. -/
theorem findOccurrences_abstar_xaabay_ne_claim :
    findOccurrences 300 "ab*a" "xaabay" ≠ some [(1, 5)] := by decide

set_option maxHeartbeats 4000000 in
/-- C1 (amended): `find_occurrences(compile("ab*a"), "xaabay")` returns exactly
`[(1, 3), (2, 5)]` — at end 3 the minimal marker start is 0 and `"aa"`
re-verifies, at end 5 the minimal marker start is 1 and `"aba"` re-verifies;
`"aaba"` is never a candidate because markers track genuine per-start runs. -/
theorem findOccurrences_abstar_xaabay :
    findOccurrences 300 "ab*a" "xaabay" = some [(1, 3), (2, 5)] := by decide

set_option maxHeartbeats 4000000 in
/-- C2: the word-class branch of `__trans` tests membership of the symbol in the
two-character *string* `"\d"` (`letter in ValidCharacters.DIGITS_CLASS`) instead
of the digit *set*, so the fragment compiled from `"\w"` full-matches a letter
but rejects every digit, while `"\d"` does accept a digit. -/
theorem word_class_rejects_digit :
    fullMatchRe 300 "\\w" "5" = some false ∧
    fullMatchRe 300 "\\w" "x" = some true ∧
    fullMatchRe 300 "\\d" "5" = some true := by
  refine ⟨by decide, by decide, by decide⟩

/-- C4: canonicalization of a zero-or-one quantifier on an escaped class: the
`ONE_OR_NONE` branch of `__convert_to_standard_re_helper` lacks the
backslash-span adjustment that the `ONE_CLOSURE` branch has, so the group
captures only the class letter and the backslash is stranded outside:
`"\d?" ↦ "\(d+?)"` (likewise for `w`, `a`), not the claimed `"(\d+?)"`. -/
theorem convert_escaped_class_question :
    regexIteratorInit 100 "\\d?".toList = some "\\(d+?)".toList ∧
    regexIteratorInit 100 "\\w?".toList = some "\\(w+?)".toList ∧
    regexIteratorInit 100 "\\a?".toList = some "\\(a+?)".toList ∧
    some "\\(d+?)".toList ≠ some "(\\d+?)".toList := by
  refine ⟨by decide, by decide, by decide, by decide⟩

/-- C6 counterexample: `validate("(a")` rejects with the unbalanced-parentheses
error, whose message carries *no* position — refuting the claim that all four
sample rejections carry the offending 0-based position. -/
theorem validate_unbalanced_carries_no_position :
    validate "(a" = some RErr.unbalanced ∧ RErr.errPos RErr.unbalanced = none := by
  refine ⟨by decide, rfl⟩

/-- C6 (amended): all four sample patterns are rejected; `"a**"`, `"[]"` and
`"\x"` carry positions 1, 0 and 0 respectively, while `"(a"` is rejected by the
final balance check whose error carries no position. -/
theorem validate_rejects_examples :
    validate "(a" = some RErr.unbalanced ∧
    validate "a**" = some (RErr.metaRepeat 1) ∧
    validate "[]" = some (RErr.emptySquare 0) ∧
    validate "\\x" = some (RErr.badBackslash 0) ∧
    RErr.errPos (RErr.metaRepeat 1) = some 1 ∧
    RErr.errPos (RErr.emptySquare 0) = some 0 ∧
    RErr.errPos (RErr.badBackslash 0) = some 0 ∧
    RErr.errPos RErr.unbalanced = none := by
  refine ⟨by decide, by decide, by decide, by decide, rfl, rfl, rfl, rfl⟩

/-! ## Structural lemmas about the arena (for the combinator theorems) -/

theorem addTransT_alookup_same (t : StTable) (l : Lab) (v : Nat) :
    PyDict.alookup (addTransT t l v) l = some ((PyDict.alookup t l).getD [] ++ [v]) := by
  induction t with
  | nil => simp [addTransT, PyDict.alookup]
  | cons hd rest ih =>
      obtain ⟨k, ts⟩ := hd
      by_cases h : k = l
      · subst h; simp [addTransT, PyDict.alookup]
      · simp [addTransT, PyDict.alookup, h, ih]

theorem addTransT_alookup_other (t : StTable) {l l' : Lab} (h : l ≠ l') (v : Nat) :
    PyDict.alookup (addTransT t l v) l' = PyDict.alookup t l' := by
  induction t with
  | nil => simp [addTransT, PyDict.alookup, h]
  | cons hd rest ih =>
      obtain ⟨k, ts⟩ := hd
      by_cases hk : k = l
      · subst hk; simp [addTransT, PyDict.alookup, h]
      · simp [addTransT, PyDict.alookup, hk, ih]

theorem stTable_ge (g : Graph) (s : Nat) (h : g.length ≤ s) : stTable g s = [] := by
  simp [stTable, List.getD_eq_getElem?_getD, List.getElem?_eq_none h]

theorem stTable_set_same (g : Graph) (s : Nat) (t : StTable) (h : s < g.length) :
    stTable (g.set s t) s = t := by
  simp [stTable, List.getD_eq_getElem?_getD, List.getElem?_set_self' , h]

theorem stTable_set_other (g : Graph) {s s' : Nat} (t : StTable) (h : s ≠ s') :
    stTable (g.set s t) s' = stTable g s' := by
  simp [stTable, List.getD_eq_getElem?_getD, List.getElem?_set_ne h]

theorem stTable_append_lt (g ts : Graph) (s : Nat) (h : s < g.length) :
    stTable (g ++ ts) s = stTable g s := by
  simp [stTable, List.getD_eq_getElem?_getD, List.getElem?_append, h]

theorem stTable_append_at (g : Graph) (t : StTable) :
    stTable (g ++ [t]) g.length = t := by
  simp [stTable, List.getD_eq_getElem?_getD]

theorem length_addEdge (g : Graph) (s : Nat) (l : Lab) (v : Nat) :
    (addEdge g s l v).length = g.length := by
  simp [addEdge]

theorem stTable_addEdge_same (g : Graph) (s : Nat) (l : Lab) (v : Nat)
    (h : s < g.length) :
    stTable (addEdge g s l v) s = addTransT (stTable g s) l v :=
  stTable_set_same g s _ h

theorem stTable_addEdge_other (g : Graph) {s s' : Nat} (l : Lab) (v : Nat)
    (h : s ≠ s') : stTable (addEdge g s l v) s' = stTable g s' :=
  stTable_set_other g _ h

/-! ## Claim C5: the star combinator -/

/-- C5 counterexample: star of the single-letter fragment `a` (states 0 = old
initial, 1 = old final; new states 2, 3).  The old final's epsilon targets are
`[2, 3]` — the *new* initial and new final — and the claimed epsilon edge
old-final → old-initial (`0`) is absent. -/
theorem star_lacks_old_final_to_old_initial_edge :
    labTargets (performStar [[(Lab.ch 'a', [1])], []] (0, 1)).1 1 Lab.eps = [2, 3] ∧
    (0 : Nat) ∉ labTargets (performStar [[(Lab.ch 'a', [1])], []] (0, 1)).1 1 Lab.eps := by
  refine ⟨by decide, by decide⟩

/-- C5 (amended): `__perform_star` allocates two new states (ids `len g`,
`len g + 1`) and adds exactly four epsilon edges — new-initial → old-initial,
new-initial → new-final, old-final → **new**-initial, old-final → new-final —
leaving every other transition untouched; the result's initial/final are the two
new states. -/
theorem performStar_spec (g : Graph) (a : Nat × Nat) (hf : a.2 < g.length) :
    (performStar g a).2.1 = g.length ∧
    (performStar g a).2.2 = g.length + 1 ∧
    (performStar g a).1.length = g.length + 2 ∧
    stTable (performStar g a).1 g.length = [(Lab.eps, [a.1, g.length + 1])] ∧
    stTable (performStar g a).1 (g.length + 1) = [] ∧
    labTargets (performStar g a).1 a.2 Lab.eps
      = labTargets g a.2 Lab.eps ++ [g.length, g.length + 1] ∧
    (∀ l, l ≠ Lab.eps →
      PyDict.alookup (stTable (performStar g a).1 a.2) l
        = PyDict.alookup (stTable g a.2) l) ∧
    (∀ s, s ≠ a.2 → s < g.length → stTable (performStar g a).1 s = stTable g s) := by
  obtain ⟨oi, of⟩ := a
  replace hf : of < g.length := hf
  have hlen1 : ((g ++ [[]] : Graph)).length = g.length + 1 := by simp
  have hlen2 : ((g ++ [[]] ++ [[]] : Graph)).length = g.length + 2 := by simp
  have hni0 : stTable (g ++ [[]] ++ [[]]) g.length = [] := by
    calc stTable (g ++ [[]] ++ [[]]) g.length
        = stTable (g ++ [[]]) g.length := stTable_append_lt _ _ _ (by simp)
      _ = [] := stTable_append_at g []
  have hnf0 : stTable (g ++ [[]] ++ [[]]) (g.length + 1) = [] := by
    have h := stTable_append_at (g ++ [[]]) []
    rw [hlen1] at h
    exact h
  have hof0 : stTable (g ++ [[]] ++ [[]]) of = stTable g of := by
    calc stTable (g ++ [[]] ++ [[]]) of
        = stTable (g ++ [[]]) of := stTable_append_lt _ _ _ (by simp; omega)
      _ = stTable g of := stTable_append_lt _ _ _ hf
  simp only [performStar, newState, hlen1]
  refine ⟨trivial, trivial, ?_, ?_, ?_, ?_, ?_, ?_⟩
  · simp only [length_addEdge, hlen2]
  · rw [stTable_addEdge_other _ _ _ (show of ≠ g.length by omega),
      stTable_addEdge_other _ _ _ (show of ≠ g.length by omega),
      stTable_addEdge_same _ _ _ _
        (by simp only [length_addEdge, hlen2]; omega),
      stTable_addEdge_same _ _ _ _ (by simp only [hlen2]; omega), hni0]
    simp [addTransT]
  · rw [stTable_addEdge_other _ _ _ (show of ≠ g.length + 1 by omega),
      stTable_addEdge_other _ _ _ (show of ≠ g.length + 1 by omega),
      stTable_addEdge_other _ _ _ (show g.length ≠ g.length + 1 by omega),
      stTable_addEdge_other _ _ _ (show g.length ≠ g.length + 1 by omega), hnf0]
  · rw [labTargets,
      stTable_addEdge_same _ _ _ _
        (by simp only [length_addEdge, hlen2]; omega),
      stTable_addEdge_same _ _ _ _
        (by simp only [length_addEdge, hlen2]; omega),
      stTable_addEdge_other _ _ _ (show g.length ≠ of by omega),
      stTable_addEdge_other _ _ _ (show g.length ≠ of by omega), hof0,
      addTransT_alookup_same, addTransT_alookup_same]
    simp [labTargets]
  · intro l hl
    rw [stTable_addEdge_same _ _ _ _
        (by simp only [length_addEdge, hlen2]; omega),
      stTable_addEdge_same _ _ _ _
        (by simp only [length_addEdge, hlen2]; omega),
      stTable_addEdge_other _ _ _ (show g.length ≠ of by omega),
      stTable_addEdge_other _ _ _ (show g.length ≠ of by omega), hof0,
      addTransT_alookup_other _ (fun hc => hl hc.symm),
      addTransT_alookup_other _ (fun hc => hl hc.symm)]
  · intro s hs hslt
    rw [stTable_addEdge_other _ _ _ (fun hc => hs hc.symm),
      stTable_addEdge_other _ _ _ (fun hc => hs hc.symm),
      stTable_addEdge_other _ _ _ (show g.length ≠ s by omega),
      stTable_addEdge_other _ _ _ (show g.length ≠ s by omega)]
    calc stTable (g ++ [[]] ++ [[]]) s
        = stTable (g ++ [[]]) s := stTable_append_lt _ _ _ (by simp; omega)
      _ = stTable g s := stTable_append_lt _ _ _ hslt

/-- C5 witness: the general star theorem applied to the single-letter fragment
`a` (graph `[[('a', [1])], []]`, initial 0, final 1). -/
theorem performStar_spec_witness :
    (1 : Nat) < ([[(Lab.ch 'a', [1])], []] : Graph).length ∧
    ((performStar [[(Lab.ch 'a', [1])], []] (0, 1)).2.1
        = ([[(Lab.ch 'a', [1])], []] : Graph).length ∧
      (performStar [[(Lab.ch 'a', [1])], []] (0, 1)).2.2
        = ([[(Lab.ch 'a', [1])], []] : Graph).length + 1 ∧
      (performStar [[(Lab.ch 'a', [1])], []] (0, 1)).1.length
        = ([[(Lab.ch 'a', [1])], []] : Graph).length + 2 ∧
      stTable (performStar [[(Lab.ch 'a', [1])], []] (0, 1)).1
          ([[(Lab.ch 'a', [1])], []] : Graph).length
        = [(Lab.eps, [0, ([[(Lab.ch 'a', [1])], []] : Graph).length + 1])] ∧
      stTable (performStar [[(Lab.ch 'a', [1])], []] (0, 1)).1
          (([[(Lab.ch 'a', [1])], []] : Graph).length + 1) = [] ∧
      labTargets (performStar [[(Lab.ch 'a', [1])], []] (0, 1)).1 1 Lab.eps
        = labTargets [[(Lab.ch 'a', [1])], []] 1 Lab.eps ++
            [([[(Lab.ch 'a', [1])], []] : Graph).length,
              ([[(Lab.ch 'a', [1])], []] : Graph).length + 1] ∧
      (∀ l, l ≠ Lab.eps →
        PyDict.alookup (stTable (performStar [[(Lab.ch 'a', [1])], []] (0, 1)).1 1) l
          = PyDict.alookup (stTable [[(Lab.ch 'a', [1])], []] 1) l) ∧
      (∀ s, s ≠ 1 → s < ([[(Lab.ch 'a', [1])], []] : Graph).length →
        stTable (performStar [[(Lab.ch 'a', [1])], []] (0, 1)).1 s
          = stTable [[(Lab.ch 'a', [1])], []] s)) :=
  ⟨by decide, performStar_spec [[(Lab.ch 'a', [1])], []] (0, 1) (by decide)⟩

/-! ## Claim C3: label choice in the step computation -/

theorem getItemD_of_hasLab {g : Graph} {s : Nat} {l : Lab} (h : hasLab g s l = true) :
    getItemD g s l = (labTargets g s l, g) := by
  unfold hasLab at h
  unfold getItemD labTargets
  cases hh : PyDict.alookup (stTable g s) l with
  | none => rw [hh] at h; simp at h
  | some ts => simp [hh]

theorem labTargets_of_not_hasLab {g : Graph} {s : Nat} {l : Lab}
    (h : hasLab g s l = false) : labTargets g s l = [] := by
  unfold hasLab at h
  unfold labTargets
  cases hh : PyDict.alookup (stTable g s) l with
  | none => simp
  | some ts => rw [hh] at h; simp at h

@[simp] theorem upsertAll_nil (d : PyDict Nat (Finset ℤ)) (S : Finset ℤ) :
    upsertAll d S [] = d := rfl

/-- C3 counterexample: in the graph with state 0 = `{'.': [2]}` and state
1 = `{'.': [3]}`, stepping the singleton frontier `{1: {5}}` on `'x'` produces
*nothing* (the wildcard branch only overwrites the loop-local `letter`, never
`alternative_letter`), while stepping `{0: {4}, 1: {5}}` on the same `'x'` does
step state 1 through its `any` edge — because state 0, iterated first, mutated
`letter` to `'.'`.  The effective label thus depends on the other frontier
members and their order. -/
theorem trans_any_depends_on_frontier :
    (trans [[(Lab.ch '.', [2])], [(Lab.ch '.', [3])], [], []]
      [(1, ({5} : Finset ℤ))] 'x').1 = [] ∧
    (trans [[(Lab.ch '.', [2])], [(Lab.ch '.', [3])], [], []]
      [(0, ({4} : Finset ℤ)), (1, ({5} : Finset ℤ))] 'x').1
      = [(3, ({5} : Finset ℤ))] := by
  refine ⟨by decide, by decide⟩

/-- Per-state effective-label choice written in the spec's priority order
(alpha-class > word-class > digit-class > literal), with each condition exactly
as implemented (in particular the word-class test, substring membership in the
string `"\d"`, holds for backslash and `'d'`).  This is the spec-side definition
the amended C3 compares the code against; the wildcard is deliberately absent —
see the counterexample. -/
def effLabel (g : Graph) (s : Nat) (c : Char) : Lab :=
  if hasLab g s (.esc 'a') && ValidCharacters.inAsciiSet c then .esc 'a'
  else if hasLab g s (.esc 'w') &&
      (c = '\\' || c = 'd' || ValidCharacters.inAsciiSet c) then .esc 'w'
  else if hasLab g s (.esc 'd') && ValidCharacters.inDigitsSet c then .esc 'd'
  else .ch c

/-- With no wildcard mutation (`letter0 = letter'`), the loop body's
last-writer-wins assignment chain equals the priority-ordered `effLabel`. -/
theorem codeAlt_eq_effLabel (g : Graph) (s : Nat) (c : Char) :
    codeAlt g s c c = effLabel g s c := by
  unfold codeAlt effLabel
  by_cases h1 : (hasLab g s (.esc 'a') && ValidCharacters.inAsciiSet c) = true
  · simp [h1]
  · by_cases h2 : (hasLab g s (.esc 'w') &&
        (c = '\\' || c = 'd' || ValidCharacters.inAsciiSet c)) = true
    · simp [h1, h2]
    · by_cases h3 : (hasLab g s (.esc 'd') && ValidCharacters.inDigitsSet c) = true
      · simp [h1, h2, h3]
      · simp [h1, h2, h3]

/-- Frontier stepping in which every state independently follows its
`effLabel`-transitions: the spec's order-independent description of `__trans`. -/
def transPure (g : Graph) (M : PyDict Nat (Finset ℤ)) (c : Char) :
    PyDict Nat (Finset ℤ) :=
  M.foldl (fun acc p => upsertAll acc p.2 (labTargets g p.1 (effLabel g p.1 c))) []

theorem transGo_no_any (g : Graph) (c : Char) :
    ∀ (M : List (Nat × Finset ℤ)) (acc : PyDict Nat (Finset ℤ)),
      (∀ p ∈ M, hasLab g p.1 (Lab.ch '.') = false) →
      transGo g c acc M
        = (M.foldl
            (fun acc p => upsertAll acc p.2 (labTargets g p.1 (effLabel g p.1 c)))
            acc, g)
  | [], _, _ => rfl
  | (s, idxs) :: rest, acc, hc => by
      have hs : hasLab g s (Lab.ch '.') = false := hc (s, idxs) (by simp)
      have hrest : ∀ p ∈ rest, hasLab g p.1 (Lab.ch '.') = false :=
        fun p hp => hc p (List.mem_cons_of_mem _ hp)
      rw [List.foldl_cons]
      by_cases halt : hasLab g s (effLabel g s c) = true
      · rw [show transGo g c acc ((s, idxs) :: rest)
            = transGo g c (upsertAll acc idxs (labTargets g s (effLabel g s c))) rest by
          simp only [transGo, hs, Bool.false_eq_true, if_false, codeAlt_eq_effLabel,
            getItemD_of_hasLab halt, halt, if_true]]
        exact transGo_no_any g c rest _ hrest
      · rw [show transGo g c acc ((s, idxs) :: rest) = transGo g c acc rest by
          simp only [transGo, hs, Bool.false_eq_true, if_false, codeAlt_eq_effLabel,
            eq_false_of_ne_true halt],
          labTargets_of_not_hasLab (eq_false_of_ne_true halt), upsertAll_nil]
        exact transGo_no_any g c rest _ hrest

/-- C3 (amended): when no frontier state has an `any` ('.') transition, the
step computation is order-independent and per-state: each state follows the
transitions of its `effLabel` — chosen from its own table and the input symbol
alone, by the last-writer-wins priority alpha-class > word-class > digit-class >
literal — and the graph is untouched.  (With an `any` state in the frontier the
input symbol is overwritten to `'.'` for all later states, so the choice *does*
depend on iteration order, and an `any` state steps through its `any` edge only
when the possibly-mutated symbol is itself `'.'` — see the counterexample.) -/
theorem trans_no_any_pure (g : Graph) (M : PyDict Nat (Finset ℤ)) (c : Char)
    (hc : ∀ p ∈ M, hasLab g p.1 (Lab.ch '.') = false) :
    trans g M c = (transPure g M c, g) :=
  transGo_no_any g c M [] hc

/-- C3 witness: a frontier whose single state carries word-class and digit-class
transitions, stepped on the digit `'5'`. -/
theorem trans_no_any_pure_witness :
    (∀ p ∈ [((0 : Nat), ({7} : Finset ℤ))],
      hasLab [[(Lab.esc 'w', [1]), (Lab.esc 'd', [2])], [], []] p.1 (Lab.ch '.') = false) ∧
    trans [[(Lab.esc 'w', [1]), (Lab.esc 'd', [2])], [], []] [(0, ({7} : Finset ℤ))] '5'
      = (transPure [[(Lab.esc 'w', [1]), (Lab.esc 'd', [2])], [], []]
          [(0, ({7} : Finset ℤ))] '5',
        [[(Lab.esc 'w', [1]), (Lab.esc 'd', [2])], [], []]) :=
  ⟨by decide, trans_no_any_pure _ _ _ (by decide)⟩

/-! ## Claim C9: matching never mutates the transition tables

Every `state[...]` read performed during simulation is a defaultdict access
(`getItemD`), which *would* insert a fresh key when absent; the theorems below
show each such read is guarded by a membership test in the source, so the graph
component threaded through the simulation comes back unchanged. -/

theorem closureGo_graph : ∀ (fuel : Nat) (g : Graph) (M : PyDict Nat (Finset ℤ))
    (q : List Nat) (out : PyDict Nat (Finset ℤ) × Graph),
    closureGo fuel g M q = some out → out.2 = g
  | _, g, M, [], out => by
      intro h
      simp only [closureGo] at h
      cases h
      rfl
  | 0, g, M, s :: q, out => by intro h; simp [closureGo] at h
  | fuel + 1, g, M, s :: q, out => by
      intro h
      simp only [closureGo] at h
      by_cases he : hasLab g s Lab.eps = true
      · rw [if_pos he, getItemD_of_hasLab he] at h
        exact closureGo_graph fuel g _ _ out h
      · rw [if_neg he] at h
        exact closureGo_graph fuel g _ _ out h

theorem closure_graph (fuel : Nat) (g : Graph) (M : PyDict Nat (Finset ℤ))
    (out : PyDict Nat (Finset ℤ) × Graph) (h : closure fuel g M = some out) :
    out.2 = g :=
  closureGo_graph fuel g M (PyDict.keys M) out h

theorem transGo_graph : ∀ (M : List (Nat × Finset ℤ)) (g : Graph) (letter : Char)
    (acc : PyDict Nat (Finset ℤ)), (transGo g letter acc M).2 = g
  | [], _, _, _ => rfl
  | (s, idxs) :: rest, g, letter, acc => by
      simp only [transGo]
      by_cases halt :
          hasLab g s (codeAlt g s letter
            (if hasLab g s (Lab.ch '.') = true then '.' else letter)) = true
      · simp only [halt, if_true, getItemD_of_hasLab halt]
        exact transGo_graph rest g _ _
      · simp only [eq_false_of_ne_true halt, Bool.false_eq_true, if_false]
        exact transGo_graph rest g _ _

theorem trans_graph (g : Graph) (M : PyDict Nat (Finset ℤ)) (letter : Char) :
    (trans g M letter).2 = g :=
  transGo_graph M g letter []

theorem testWordGo_graph : ∀ (word : List Char) (fuel : Nat) (g : Graph)
    (M : PyDict Nat (Finset ℤ)) (out : PyDict Nat (Finset ℤ) × Graph),
    testWordGo fuel g M word = some out → out.2 = g
  | [], _, g, M, out => by
      intro h
      simp only [testWordGo] at h
      cases h
      rfl
  | c :: rest, fuel, g, M, out => by
      intro h
      simp only [testWordGo] at h
      split at h
      · exact Option.noConfusion h
      · rename_i M' g2 hcl
        have hg2 : g2 = g := by
          have hq := closure_graph fuel _ _ _ hcl
          rw [trans_graph] at hq
          exact hq
        have hrec : out.2 = g2 := testWordGo_graph rest fuel g2 M' out h
        rw [hrec, hg2]

theorem testWordT_graph (fuel : Nat) (a : Auto) (w : List Char)
    (out : Bool × Graph) (h : testWordT fuel a w = some out) : out.2 = a.g := by
  simp only [testWordT] at h
  split at h
  · exact Option.noConfusion h
  · rename_i M0 g0 hcl
    split at h
    · exact Option.noConfusion h
    · rename_i M gg hgo
      cases h
      have h1 : gg = g0 := testWordGo_graph w fuel g0 M0 _ hgo
      have h2 : g0 = a.g := closure_graph _ _ _ _ hcl
      simpa using h1.trans h2

theorem matchStepCore_graph (fuel : Nat) (a : Auto) (text : List Char) (g : Graph)
    (M : PyDict Nat (Finset ℤ)) (i : Nat) (c : Char)
    (out : Graph × PyDict Nat (Finset ℤ) × Option (ℤ × ℤ))
    (h : matchStepCore fuel a text g M i c = some out) : out.1 = g := by
  simp only [matchStepCore] at h
  split at h
  · exact Option.noConfusion h
  · rename_i M' g2 hcl
    have hg2 : g2 = g := by
      have hq := closure_graph _ _ _ _ hcl
      rw [trans_graph] at hq
      exact hq
    split at h
    · split at h
      · split at h
        · exact Option.noConfusion h
        · rename_i b g3 htw
          cases h
          have h3 : g3 = g2 := testWordT_graph _ _ _ _ htw
          simpa using h3.trans hg2
      · cases h
        simpa using hg2
    · cases h
      simpa using hg2

theorem matchLoop_graph : ∀ (l : List (Nat × Char)) (fuel : Nat) (a : Auto)
    (text : List Char) (g : Graph) (M : PyDict Nat (Finset ℤ)) (occ : PyDict ℤ ℤ)
    (out : PyDict ℤ ℤ × Graph),
    matchLoop fuel a text g M occ l = some out → out.2 = g
  | [], _, _, _, g, M, occ, out => by
      intro h
      simp only [matchLoop] at h
      cases h
      rfl
  | (i, c) :: rest, fuel, a, text, g, M, occ, out => by
      intro h
      simp only [matchLoop] at h
      split at h
      · exact Option.noConfusion h
      · rename_i g' M' ev hsc
        have hg' : g' = g := matchStepCore_graph _ _ _ _ _ _ _ _ hsc
        have hrec : out.2 = g' := matchLoop_graph rest fuel a text g' M' _ out h
        rw [hrec, hg']

/-- C9: the matching operations read but never write the transition tables.
For every fragment and every input, `test_word` (full match) and `__matching`
(substring search) return the graph exactly as they received it: no label key is
added — not even by a defaultdict auto-insertion on lookup, since every
`state[...]` read in the simulation is guarded by a membership test — and no
target list changes. -/
theorem matching_mutates_no_state :
    (∀ (fuel : Nat) (a : Auto) (w : List Char) (out : Bool × Graph),
        testWordT fuel a w = some out → out.2 = a.g) ∧
    (∀ (fuel : Nat) (a : Auto) (t : List Char) (out : PyDict ℤ ℤ × Graph),
        matchingT fuel a t = some out → out.2 = a.g) := by
  refine ⟨testWordT_graph, ?_⟩
  intro fuel a t out h
  simp only [matchingT] at h
  split at h
  · exact Option.noConfusion h
  · rename_i M0 g0 hcl
    have hg0 : g0 = a.g := closure_graph _ _ _ _ hcl
    have hrec : out.2 = g0 := matchLoop_graph _ _ _ _ _ _ _ _ h
    rw [hrec, hg0]

/-- C9 witness: the single-letter fragment `a`, full-matched against `"a"` and
scanned over `"b"`; both return the untouched two-state graph. -/
theorem matching_mutates_no_state_witness :
    testWordT 50 ⟨[[(Lab.ch 'a', [1])], []], 0, 1⟩ ['a']
        = some (true, [[(Lab.ch 'a', [1])], []]) ∧
    ((true, ([[(Lab.ch 'a', [1])], []] : Graph)) : Bool × Graph).2
        = [[(Lab.ch 'a', [1])], []] ∧
    matchingT 50 ⟨[[(Lab.ch 'a', [1])], []], 0, 1⟩ ['b']
        = some ([], [[(Lab.ch 'a', [1])], []]) ∧
    (([], ([[(Lab.ch 'a', [1])], []] : Graph)) : PyDict ℤ ℤ × Graph).2
        = [[(Lab.ch 'a', [1])], []] :=
  ⟨by decide,
    matching_mutates_no_state.1 50 ⟨[[(Lab.ch 'a', [1])], []], 0, 1⟩ ['a'] _ (by decide),
    by decide,
    matching_mutates_no_state.2 50 ⟨[[(Lab.ch 'a', [1])], []], 0, 1⟩ ['b'] _ (by decide)⟩

/-! ## Claims C8 and C10: shape of the returned occurrence list

`__matching` folds its recording events `occurrences[start_idx+1] = i+1` into a
dict; the lemmas below relate the returned dict to the event sequence. -/

theorem matchLoop_eq_eventsLoop (fuel : Nat) (a : Auto) (text : List Char) :
    ∀ (l : List (Nat × Char)) (g : Graph) (M : PyDict Nat (Finset ℤ))
      (occ : PyDict ℤ ℤ),
      matchLoop fuel a text g M occ l
        = (eventsLoop fuel a text g M l).map
            (fun p => (p.1.foldl (fun d q => PyDict.pySet d q.1 q.2) occ, p.2))
  | [], g, M, occ => rfl
  | (i, c) :: rest, g, M, occ => by
      simp only [matchLoop, eventsLoop]
      cases hsc : matchStepCore fuel a text g M i c with
      | none => rfl
      | some out =>
          obtain ⟨g', M', ev⟩ := out
          dsimp only
          rw [matchLoop_eq_eventsLoop fuel a text rest g' M' _]
          cases hev : eventsLoop fuel a text g' M' rest with
          | none => rfl
          | some q =>
              obtain ⟨evs, g''⟩ := q
              dsimp only
              cases ev with
              | none => rfl
              | some p =>
                  obtain ⟨s, e⟩ := p
                  rfl

/-- Embeds `matching` equals the left fold of the recording events into an empty dict. -/
theorem matching_eq_fold_events (fuel : Nat) (a : Auto) (text : String) :
    matching fuel a text
      = (matchEvents fuel a text.toList).map
          (fun evs => evs.foldl (fun d p => PyDict.pySet d p.1 p.2) []) := by
  unfold matching matchingT matchEvents
  cases hcl : closure fuel a.g [(a.initial, {-1})] with
  | none => rfl
  | some q =>
      obtain ⟨M0, g0⟩ := q
      simp only [matchLoop_eq_eventsLoop fuel a text.toList text.toList.enum g0 M0 []]
      cases eventsLoop fuel a text.toList g0 M0 text.toList.enum <;> rfl

/-- the recorded pair of one scan step ends at `i + 1`. -/
theorem matchStepCore_event_snd (fuel : Nat) (a : Auto) (text : List Char)
    (g : Graph) (M : PyDict Nat (Finset ℤ)) (i : Nat) (c : Char)
    (g' : Graph) (M' : PyDict Nat (Finset ℤ)) (p : ℤ × ℤ)
    (h : matchStepCore fuel a text g M i c = some (g', M', some p)) :
    p.2 = (i : ℤ) + 1 := by
  simp only [matchStepCore] at h
  split at h
  · exact Option.noConfusion h
  · rename_i M'' g2 hcl
    split at h
    · split at h
      · split at h
        · exact Option.noConfusion h
        · rename_i b g3 htw
          split at h
          · cases h
            rfl
          · simp at h
      · simp at h
    · simp at h

theorem le_fst_of_mem_enumFrom : ∀ (n : Nat) (l : List Char) (q : Nat × Char),
    q ∈ List.enumFrom n l → n ≤ q.1
  | n, [], q => by simp [List.enumFrom]
  | n, c :: rest, q => by
      simp only [List.enumFrom, List.mem_cons]
      rintro (rfl | hq)
      · exact Nat.le_refl n
      · exact Nat.le_of_succ_le (le_fst_of_mem_enumFrom (n + 1) rest q hq)

theorem pairwise_fst_lt_enumFrom : ∀ (n : Nat) (l : List Char),
    List.Pairwise (fun p q : Nat × Char => p.1 < q.1) (List.enumFrom n l)
  | _, [] => List.Pairwise.nil
  | n, c :: rest => by
      simp only [List.enumFrom]
      refine List.Pairwise.cons ?_ (pairwise_fst_lt_enumFrom (n + 1) rest)
      intro q hq
      exact Nat.lt_of_succ_le (le_fst_of_mem_enumFrom (n + 1) rest q hq)

theorem pairwise_fst_lt_enum (l : List Char) :
    List.Pairwise (fun p q : Nat × Char => p.1 < q.1) l.enum :=
  pairwise_fst_lt_enumFrom 0 l

/-- along a scan with strictly increasing positions, the recording events have
strictly increasing ends, each of the form `i + 1` for a scanned position. -/
theorem eventsLoop_records (fuel : Nat) (a : Auto) (text : List Char) :
    ∀ (l : List (Nat × Char)) (g : Graph) (M : PyDict Nat (Finset ℤ))
      (out : List (ℤ × ℤ) × Graph),
      List.Pairwise (fun p q : Nat × Char => p.1 < q.1) l →
      eventsLoop fuel a text g M l = some out →
      List.Pairwise (fun x y : ℤ × ℤ => x.2 < y.2) out.1 ∧
      ∀ x ∈ out.1, ∃ p ∈ l, x.2 = (p.1 : ℤ) + 1
  | [], g, M, out => by
      intro _ h
      simp only [eventsLoop] at h
      cases h
      exact ⟨List.Pairwise.nil, by simp⟩
  | (i, c) :: rest, g, M, out => by
      intro hpw h
      simp only [eventsLoop] at h
      split at h
      · exact Option.noConfusion h
      · rename_i g' M' ev hsc
        split at h
        · exact Option.noConfusion h
        · rename_i evs g'' hev
          cases h
          obtain ⟨hfirst, hrest⟩ := List.pairwise_cons.mp hpw
          obtain ⟨hpw', hmem'⟩ :=
            eventsLoop_records fuel a text rest g' M' (evs, g'') hrest hev
          have hbound : ∀ y ∈ evs, (i : ℤ) + 1 < y.2 := by
            intro y hy
            obtain ⟨q, hq, hy2⟩ := hmem' y hy
            have hiq : i < q.1 := hfirst q hq
            rw [hy2]
            exact_mod_cast Nat.succ_lt_succ hiq
          constructor
          · cases ev with
            | none => simpa using hpw'
            | some p =>
                have hp2 : p.2 = (i : ℤ) + 1 :=
                  matchStepCore_event_snd fuel a text g M i c g' M' p hsc
                simp only [Option.toList, List.singleton_append]
                refine List.Pairwise.cons ?_ hpw'
                intro y hy
                rw [hp2]
                exact hbound y hy
          · intro x hx
            cases ev with
            | none =>
                simp only [Option.toList, List.nil_append] at hx
                obtain ⟨q, hq, hx2⟩ := hmem' x hx
                exact ⟨q, List.mem_cons_of_mem _ hq, hx2⟩
            | some p =>
                simp only [Option.toList, List.singleton_append, List.mem_cons] at hx
                rcases hx with rfl | hx
                · exact ⟨(i, c), List.mem_cons_self _ _,
                    matchStepCore_event_snd fuel a text g M i c g' M' x hsc⟩
                · obtain ⟨q, hq, hx2⟩ := hmem' x hx
                  exact ⟨q, List.mem_cons_of_mem _ hq, hx2⟩

/-- the recording events of a whole scan have strictly increasing ends. -/
theorem matchEvents_pairwise (fuel : Nat) (a : Auto) (textL : List Char)
    (evs : List (ℤ × ℤ)) (he : matchEvents fuel a textL = some evs) :
    List.Pairwise (fun x y : ℤ × ℤ => x.2 < y.2) evs := by
  unfold matchEvents at he
  split at he
  · exact Option.noConfusion he
  · rename_i M0 g0 hcl
    cases hev : eventsLoop fuel a textL g0 M0 textL.enum with
    | none => rw [hev] at he; exact Option.noConfusion he
    | some out =>
        rw [hev] at he
        cases he
        exact (eventsLoop_records fuel a textL textL.enum g0 M0 out
          (pairwise_fst_lt_enum textL) hev).1

theorem foldl_pySet_keys_nodup : ∀ (evs : List (ℤ × ℤ)) (d : PyDict ℤ ℤ),
    (PyDict.keys d).Nodup →
    (PyDict.keys (evs.foldl (fun d p => PyDict.pySet d p.1 p.2) d)).Nodup
  | [], _, h => h
  | p :: rest, d, h =>
      foldl_pySet_keys_nodup rest _ (PyDict.keys_nodup_pySet h p.1 p.2)

/-- the keys of the built dict, in order: first occurrence of each start. -/
def dedupFirst (l : List ℤ) : List ℤ :=
  l.foldl (fun ks k => if k ∈ ks then ks else ks ++ [k]) []

theorem foldl_pySet_keys : ∀ (evs : List (ℤ × ℤ)) (d : PyDict ℤ ℤ),
    PyDict.keys (evs.foldl (fun d p => PyDict.pySet d p.1 p.2) d)
      = evs.foldl (fun ks p => if p.1 ∈ ks then ks else ks ++ [p.1]) (PyDict.keys d)
  | [], _ => rfl
  | p :: rest, d => by
      simp only [List.foldl_cons]
      rw [foldl_pySet_keys rest _, PyDict.keys_pySet]

theorem foldl_pySet_keys_dedupFirst (evs : List (ℤ × ℤ)) :
    PyDict.keys (evs.foldl (fun d p => PyDict.pySet d p.1 p.2) [])
      = dedupFirst (evs.map Prod.fst) := by
  rw [foldl_pySet_keys evs []]
  unfold dedupFirst
  rw [List.foldl_map]
  rfl

/-- in a fold of events with strictly increasing ends, the surviving value of a
key is the largest (= last) recorded end for that key. -/
theorem foldl_pySet_lookup_max : ∀ (evs : List (ℤ × ℤ)),
    List.Pairwise (fun x y : ℤ × ℤ => x.2 < y.2) evs →
    ∀ s e, PyDict.alookup (evs.foldl (fun d p => PyDict.pySet d p.1 p.2) []) s = some e →
      (s, e) ∈ evs ∧ ∀ e', (s, e') ∈ evs → e' ≤ e := by
  intro evs
  induction evs using List.reverseRecOn with
  | nil => intro _ s e h; simp [PyDict.alookup] at h
  | append_singleton l p ih =>
      intro hpw s e h
      obtain ⟨s₀, e₀⟩ := p
      rw [List.foldl_append, List.foldl_cons, List.foldl_nil,
        PyDict.alookup_pySet] at h
      obtain ⟨hl, _, hlast⟩ := List.pairwise_append.mp hpw
      by_cases hs : s₀ = s
      · subst hs
        rw [if_pos rfl] at h
        have heq : e₀ = e := Option.some.inj h
        subst heq
        refine ⟨List.mem_append_right _ (by simp), ?_⟩
        intro e' he'
        rcases List.mem_append.mp he' with hin | hin
        · have hlt := hlast (s₀, e') hin (s₀, e₀) (by simp)
          exact le_of_lt hlt
        · simp only [List.mem_singleton, Prod.mk.injEq] at hin
          exact le_of_eq hin.2
      · rw [if_neg hs] at h
        obtain ⟨hmem, hmax⟩ := ih hl s e h
        refine ⟨List.mem_append_left _ hmem, ?_⟩
        intro e' he'
        rcases List.mem_append.mp he' with hin | hin
        · exact hmax e' hin
        · simp only [List.mem_singleton, Prod.mk.injEq] at hin
          exact absurd hin.1.symm hs

set_option maxHeartbeats 8000000 in
/-- C8 counterexample: on the fragment compiled from `"a(ab)?"` and the text
`"baab"`, the scan records `(1,2)`, `(2,3)`, then `(1,4)`; the last record
overwrites start 1 *in place*, so the returned list is `[(1,4),(2,3)]` — not
in increasing `end` order. -/
theorem findOccurrences_not_end_ordered :
    findOccurrences 300 "a(ab)?" "baab" = some [(1, 4), (2, 3)] ∧
    ¬ List.Pairwise (fun x y : ℤ × ℤ => x.2 ≤ y.2) [((1 : ℤ), (4 : ℤ)), (2, 3)] := by
  refine ⟨by decide, by decide⟩

theorem matching_events_core (fuel : Nat) (a : Auto)
    (text : String) (occ evs : List (ℤ × ℤ))
    (hm : matching fuel a text = some occ)
    (he : matchEvents fuel a text.toList = some evs) :
    occ = evs.foldl (fun d p => PyDict.pySet d p.1 p.2) [] ∧
    List.Pairwise (fun x y : ℤ × ℤ => x.2 < y.2) evs := by
  have hq := matching_eq_fold_events fuel a text
  rw [hm, he] at hq
  refine ⟨?_, matchEvents_pairwise fuel a text.toList evs he⟩
  simpa using hq

/-- C8 (amended): the *recording events* of `find_occurrences` are produced in
strictly increasing `end` order (the natural scan order), and the returned list
is their in-place fold into the occurrence dict: each start keeps the position
of its first recording while its end is overwritten by later recordings, so the
final spans need not be sorted by `end`. -/
theorem matching_is_fold_of_increasing_events (fuel : Nat) (a : Auto)
    (text : String) (occ evs : List (ℤ × ℤ))
    (hm : matching fuel a text = some occ)
    (he : matchEvents fuel a text.toList = some evs) :
    occ = evs.foldl (fun d p => PyDict.pySet d p.1 p.2) [] ∧
    List.Pairwise (fun x y : ℤ × ℤ => x.2 < y.2) evs :=
  matching_events_core fuel a text occ evs hm he

set_option maxHeartbeats 8000000 in
/-- C8 witness: the compiled `"a(ab)?"` fragment on `"baab"`. -/
theorem matching_is_fold_of_increasing_events_witness :
    matching 300 ((buildFromRegex 300 "a(ab)?" true).getD ⟨[], 0, 0⟩) "baab"
        = some [(1, 4), (2, 3)] ∧
    matchEvents 300 ((buildFromRegex 300 "a(ab)?" true).getD ⟨[], 0, 0⟩) "baab".toList
        = some [(1, 2), (2, 3), (1, 4)] ∧
    (([(1, 4), (2, 3)] : List (ℤ × ℤ))
        = ([(1, 2), (2, 3), (1, 4)] : List (ℤ × ℤ)).foldl
            (fun d p => PyDict.pySet d p.1 p.2) [] ∧
      List.Pairwise (fun x y : ℤ × ℤ => x.2 < y.2)
        ([(1, 2), (2, 3), (1, 4)] : List (ℤ × ℤ))) :=
  ⟨by decide, by decide,
    matching_is_fold_of_increasing_events 300
      ((buildFromRegex 300 "a(ab)?" true).getD ⟨[], 0, 0⟩) "baab"
      [(1, 4), (2, 3)] [(1, 2), (2, 3), (1, 4)] (by decide) (by decide)⟩

/-- C10: the occurrence list returned by `__matching` has pairwise-distinct
start keys (at most one span per start); each start appears at the list position
of its *first* recording (the keys are the first-occurrence dedup of the event
starts); and the end stored for a start is the largest (= last) end among the
verified recordings for that start. -/
theorem matching_one_span_per_start (fuel : Nat) (a : Auto) (text : String)
    (occ evs : List (ℤ × ℤ))
    (hm : matching fuel a text = some occ)
    (he : matchEvents fuel a text.toList = some evs) :
    (PyDict.keys occ).Nodup ∧
    PyDict.keys occ = dedupFirst (evs.map Prod.fst) ∧
    (∀ s e, PyDict.alookup occ s = some e →
      (s, e) ∈ evs ∧ ∀ e', (s, e') ∈ evs → e' ≤ e) := by
  obtain ⟨hfold, hpw⟩ := matching_events_core fuel a text occ evs hm he
  subst hfold
  refine ⟨foldl_pySet_keys_nodup evs [] (by simp), foldl_pySet_keys_dedupFirst evs, ?_⟩
  intro s e hse
  exact foldl_pySet_lookup_max evs hpw s e hse

set_option maxHeartbeats 8000000 in
/-- C10 witness: the `"a(ab)?"` scan of `"baab"`, where start 1 is recorded at
ends 2 and 4 and only `(1, 4)` survives, at the position of the first record. -/
theorem matching_one_span_per_start_witness :
    matching 300 ((buildFromRegex 300 "a(ab)?" true).getD ⟨[], 0, 0⟩) "baab"
        = some [(1, 4), (2, 3)] ∧
    matchEvents 300 ((buildFromRegex 300 "a(ab)?" true).getD ⟨[], 0, 0⟩) "baab".toList
        = some [(1, 2), (2, 3), (1, 4)] ∧
    ((PyDict.keys ([(1, 4), (2, 3)] : List (ℤ × ℤ))).Nodup ∧
      PyDict.keys ([(1, 4), (2, 3)] : List (ℤ × ℤ))
        = dedupFirst (([(1, 2), (2, 3), (1, 4)] : List (ℤ × ℤ)).map Prod.fst) ∧
      (∀ s e, PyDict.alookup ([(1, 4), (2, 3)] : List (ℤ × ℤ)) s = some e →
        (s, e) ∈ ([(1, 2), (2, 3), (1, 4)] : List (ℤ × ℤ)) ∧
        ∀ e', (s, e') ∈ ([(1, 2), (2, 3), (1, 4)] : List (ℤ × ℤ)) → e' ≤ e)) :=
  ⟨by decide, by decide,
    matching_one_span_per_start 300
      ((buildFromRegex 300 "a(ab)?" true).getD ⟨[], 0, 0⟩) "baab"
      [(1, 4), (2, 3)] [(1, 2), (2, 3), (1, 4)] (by decide) (by decide)⟩

/-! ## Claim C7: termination and correctness of the epsilon-closure worklist -/

theorem alookup_append {α β : Type _} [DecidableEq α] (d e : PyDict α β) (x : α) :
    PyDict.alookup (d ++ e) x
      = match PyDict.alookup d x with
        | some v => some v
        | none => PyDict.alookup e x := by
  induction d with
  | nil => simp [PyDict.alookup]
  | cons hd tl ih =>
      obtain ⟨k, v⟩ := hd
      by_cases h : k = x <;> simp [PyDict.alookup, h, ih]

theorem alookup_upsertUnion (d : PyDict Nat (Finset ℤ)) (k : Nat) (S : Finset ℤ)
    (x : Nat) :
    PyDict.alookup (upsertUnion d k S) x
      = if k = x then some ((PyDict.alookup d k).getD ∅ ∪ S)
        else PyDict.alookup d x := by
  unfold upsertUnion
  cases hl : PyDict.alookup d k with
  | some old =>
      rw [PyDict.alookup_pySet]
      by_cases hkx : k = x
      · subst hkx; simp [hl]
      · simp [hkx]
  | none =>
      rw [alookup_append]
      by_cases hkx : k = x
      · subst hkx
        rw [hl]
        simp [PyDict.alookup]
      · cases hx : PyDict.alookup d x with
        | some v => simp [hkx]
        | none => simp [hkx, PyDict.alookup, hx]

theorem mem_keys_upsertUnion (d : PyDict Nat (Finset ℤ)) (k : Nat) (S : Finset ℤ)
    (x : Nat) :
    x ∈ PyDict.keys (upsertUnion d k S) ↔ x ∈ PyDict.keys d ∨ x = k := by
  rw [← PyDict.alookup_isSome_iff_mem_keys, ← PyDict.alookup_isSome_iff_mem_keys,
    alookup_upsertUnion]
  by_cases hkx : k = x
  · simp [hkx]
  · have hxk : ¬ x = k := fun h => hkx h.symm
    simp [hkx, hxk]

theorem keys_nodup_upsertUnion {d : PyDict Nat (Finset ℤ)}
    (hd : (PyDict.keys d).Nodup) (k : Nat) (S : Finset ℤ) :
    (PyDict.keys (upsertUnion d k S)).Nodup := by
  unfold upsertUnion
  cases hl : PyDict.alookup d k with
  | some old => exact PyDict.keys_nodup_pySet hd k _
  | none =>
      have hk : k ∉ PyDict.keys d := by
        intro hmem
        have := (PyDict.alookup_isSome_iff_mem_keys d k).2 hmem
        rw [hl] at this
        simp at this
      have : PyDict.keys (d ++ [(k, S)]) = PyDict.keys d ++ [k] := by
        simp [PyDict.keys]
      rw [this]
      refine List.Nodup.append hd (by simp) ?_
      intro x hx hk2
      simp only [List.mem_singleton] at hk2
      exact hk (hk2 ▸ hx)

theorem alookup_upsertAll : ∀ (ts : List Nat) (d : PyDict Nat (Finset ℤ))
    (S : Finset ℤ) (x : Nat),
    PyDict.alookup (upsertAll d S ts) x
      = if x ∈ ts then some ((PyDict.alookup d x).getD ∅ ∪ S)
        else PyDict.alookup d x
  | [], d, S, x => by simp [upsertAll]
  | t :: ts, d, S, x => by
      show PyDict.alookup (upsertAll (upsertUnion d t S) S ts) x = _
      rw [alookup_upsertAll ts _ S x]
      by_cases hx : x ∈ ts
      · rw [if_pos hx, if_pos (List.mem_cons_of_mem _ hx), alookup_upsertUnion]
        by_cases ht : t = x
        · subst ht
          rw [if_pos rfl]
          simp [Finset.union_assoc]
        · rw [if_neg ht]
      · rw [if_neg hx, alookup_upsertUnion]
        by_cases ht : t = x
        · subst ht
          rw [if_pos rfl, if_pos (List.mem_cons_self _ _)]
        · have hnotin : ¬ x ∈ t :: ts := by
            simp only [List.mem_cons]
            rintro (h | h)
            · exact ht h.symm
            · exact hx h
          rw [if_neg ht, if_neg hnotin]

theorem mem_keys_upsertAll (ts : List Nat) (d : PyDict Nat (Finset ℤ))
    (S : Finset ℤ) (x : Nat) :
    x ∈ PyDict.keys (upsertAll d S ts) ↔ x ∈ PyDict.keys d ∨ x ∈ ts := by
  rw [← PyDict.alookup_isSome_iff_mem_keys, ← PyDict.alookup_isSome_iff_mem_keys,
    alookup_upsertAll]
  by_cases hx : x ∈ ts <;> simp [hx]

theorem keys_nodup_upsertAll : ∀ (ts : List Nat) {d : PyDict Nat (Finset ℤ)}
    (_ : (PyDict.keys d).Nodup) (S : Finset ℤ),
    (PyDict.keys (upsertAll d S ts)).Nodup
  | [], _, hd, _ => hd
  | t :: ts, d, hd, S =>
      keys_nodup_upsertAll ts (keys_nodup_upsertUnion hd t S) S

/-- one epsilon edge. -/
def EpsStep (g : Graph) (u v : Nat) : Prop := v ∈ labTargets g u Lab.eps

/-- epsilon reachability (reflexive-transitive closure of `EpsStep`). -/
def EpsReach (g : Graph) : Nat → Nat → Prop := Relation.ReflTransGen (EpsStep g)

/-- acyclicity of the epsilon-only subgraph, stated as the existence of a
topological ranking strictly decreasing along epsilon edges — equivalent, for a
finite graph, to the absence of directed epsilon cycles. -/
def EpsAcyclic (g : Graph) : Prop :=
  ∃ r : Nat → Nat, ∀ u v, EpsStep g u v → r v < r u

/-- The worklist invariant of `__closure`, relative to the original frontier
`fr`: keys are distinct, queued states have entries, every entry is
epsilon-reachable from the frontier and its markers come from frontier states
that reach it, frontier entries only grow, and every state not in the queue is
already edge-closed. -/
structure ClosInv (g : Graph) (fr M : PyDict Nat (Finset ℤ)) (q : List Nat) :
    Prop where
  nodup : (PyDict.keys M).Nodup
  qkeys : ∀ s ∈ q, s ∈ PyDict.keys M
  sound_key : ∀ v ∈ PyDict.keys M, ∃ u ∈ PyDict.keys fr, EpsReach g u v
  sound_val : ∀ v S, PyDict.alookup M v = some S → ∀ m ∈ S,
      ∃ u S₀, PyDict.alookup fr u = some S₀ ∧ m ∈ S₀ ∧ EpsReach g u v
  grow : ∀ u S₀, PyDict.alookup fr u = some S₀ →
      ∃ S, PyDict.alookup M u = some S ∧ S₀ ⊆ S
  closed : ∀ v S, PyDict.alookup M v = some S → v ∈ q ∨
      ∀ t ∈ labTargets g v Lab.eps, ∃ S', PyDict.alookup M t = some S' ∧ S ⊆ S'

/-- processing one queue element preserves the invariant. -/
theorem closInv_step {g : Graph} {fr M : PyDict Nat (Finset ℤ)} {s : Nat}
    {q : List Nat} (inv : ClosInv g fr M (s :: q)) :
    ClosInv g fr
      (upsertAll M ((PyDict.alookup M s).getD ∅) (labTargets g s Lab.eps))
      (q ++ labTargets g s Lab.eps) := by
  obtain ⟨hnodup, hqkeys, hskey, hsval, hgrow, hclosed⟩ := inv
  have hsmem : s ∈ PyDict.keys M := hqkeys s (List.mem_cons_self _ _)
  obtain ⟨Ss, hSs⟩ : ∃ Ss, PyDict.alookup M s = some Ss := by
    have := (PyDict.alookup_isSome_iff_mem_keys M s).2 hsmem
    exact Option.isSome_iff_exists.mp this
  have hSdef : (PyDict.alookup M s).getD ∅ = Ss := by rw [hSs]; rfl
  refine ⟨?_, ?_, ?_, ?_, ?_, ?_⟩
  · exact keys_nodup_upsertAll _ hnodup _
  · intro x hx
    rw [mem_keys_upsertAll]
    rcases List.mem_append.mp hx with hx | hx
    · exact Or.inl (hqkeys x (List.mem_cons_of_mem _ hx))
    · exact Or.inr hx
  · intro v hv
    rcases (mem_keys_upsertAll _ _ _ _).mp hv with hv | hv
    · exact hskey v hv
    · obtain ⟨u, hu, hreach⟩ := hskey s hsmem
      exact ⟨u, hu, hreach.tail hv⟩
  · intro v S hvS m hm
    rw [alookup_upsertAll] at hvS
    by_cases hvts : v ∈ labTargets g s Lab.eps
    · rw [if_pos hvts] at hvS
      cases hvS
      rcases Finset.mem_union.mp hm with hm | hm
      · cases hold : PyDict.alookup M v with
        | none => rw [hold] at hm; simp at hm
        | some oldv =>
            rw [hold] at hm
            exact hsval v oldv hold m hm
      · rw [hSdef] at hm
        obtain ⟨u, S₀, hu, hm₀, hreach⟩ := hsval s Ss hSs m hm
        exact ⟨u, S₀, hu, hm₀, hreach.tail hvts⟩
    · rw [if_neg hvts] at hvS
      exact hsval v S hvS m hm
  · intro u S₀ hu
    obtain ⟨S, hS, hsub⟩ := hgrow u S₀ hu
    rw [alookup_upsertAll]
    by_cases hut : u ∈ labTargets g s Lab.eps
    · refine ⟨(PyDict.alookup M u).getD ∅ ∪ (PyDict.alookup M s).getD ∅,
        by rw [if_pos hut], ?_⟩
      rw [hS]
      exact hsub.trans Finset.subset_union_left
    · exact ⟨S, by rw [if_neg hut]; exact hS, hsub⟩
  · intro v S hvS
    by_cases hvq : v ∈ q ++ labTargets g s Lab.eps
    · exact Or.inl hvq
    · right
      have hvq' : v ∉ q := fun hc => hvq (List.mem_append_left _ hc)
      have hvts : v ∉ labTargets g s Lab.eps :=
        fun hc => hvq (List.mem_append_right _ hc)
      rw [alookup_upsertAll, if_neg hvts] at hvS
      intro t ht
      have htval : PyDict.alookup
          (upsertAll M ((PyDict.alookup M s).getD ∅) (labTargets g s Lab.eps)) t
          = if t ∈ labTargets g s Lab.eps
            then some ((PyDict.alookup M t).getD ∅ ∪ (PyDict.alookup M s).getD ∅)
            else PyDict.alookup M t := alookup_upsertAll _ _ _ _
      rcases hclosed v S hvS with hvsq | hcl
      · -- v ∈ s :: q and v ∉ q, so v = s
        have hveq : v = s := by
          rcases List.mem_cons.mp hvsq with h | h
          · exact h
          · exact absurd h hvq'
        subst hveq
        have hSeq : S = Ss := by
          rw [hSs] at hvS
          exact (Option.some.inj hvS).symm
        rw [htval, if_pos ht]
        refine ⟨_, rfl, ?_⟩
        rw [hSdef, hSeq]
        exact Finset.subset_union_right
      · obtain ⟨S', hS', hsub⟩ := hcl t ht
        rw [htval]
        by_cases htts : t ∈ labTargets g s Lab.eps
        · rw [if_pos htts]
          refine ⟨_, rfl, ?_⟩
          rw [hS']
          exact hsub.trans Finset.subset_union_left
        · rw [if_neg htts]
          exact ⟨S', hS', hsub⟩

/-- one unfolding of the worklist loop: pop `s`, union its marker set into all
its epsilon targets, enqueue them all (when `s` has no epsilon key the target
list is empty and the step is a plain pop). -/
theorem closureGo_succ (fuel : Nat) (g : Graph) (M : PyDict Nat (Finset ℤ))
    (s : Nat) (q : List Nat) :
    closureGo (fuel + 1) g M (s :: q)
      = closureGo fuel g
          (upsertAll M ((PyDict.alookup M s).getD ∅) (labTargets g s Lab.eps))
          (q ++ labTargets g s Lab.eps) := by
  simp only [closureGo]
  by_cases he : hasLab g s Lab.eps = true
  · rw [if_pos he, getItemD_of_hasLab he]
  · rw [if_neg he, labTargets_of_not_hasLab (eq_false_of_ne_true he)]
    simp [upsertAll]

/-- the fuel measure: `Σ_{s ∈ queue} B ^ rank s`. -/
def potential (r : Nat → Nat) (B : Nat) (q : List Nat) : Nat :=
  (q.map (fun s => B ^ r s)).sum

/-- an upper bound on every state's epsilon out-degree. -/
def maxOut (g : Graph) : Nat :=
  (g.map (fun t => ((PyDict.alookup t Lab.eps).getD []).length)).foldr max 0

theorem le_foldr_max : ∀ (l : List Nat) (x : Nat), x ∈ l → x ≤ l.foldr max 0
  | a :: l, x, hx => by
      rcases List.mem_cons.mp hx with rfl | hx
      · exact le_max_left _ _
      · exact (le_foldr_max l x hx).trans (le_max_right _ _)

theorem labTargets_length_le (g : Graph) (s : Nat) :
    (labTargets g s Lab.eps).length ≤ maxOut g := by
  by_cases h : s < g.length
  · have hst : stTable g s = g[s] := by
      simp [stTable, List.getD_eq_getElem?_getD, List.getElem?_eq_getElem h]
    have hmem : ((PyDict.alookup g[s] Lab.eps).getD []).length
        ∈ g.map (fun t => ((PyDict.alookup t Lab.eps).getD []).length) :=
      List.mem_map_of_mem _ (List.getElem_mem h)
    unfold labTargets maxOut
    rw [hst]
    exact le_foldr_max _ _ hmem
  · rw [labTargets, stTable_ge g s (Nat.le_of_not_lt h)]
    simp [PyDict.alookup]

theorem potential_append (r : Nat → Nat) (B : Nat) (q ts : List Nat) :
    potential r B (q ++ ts) = potential r B q + potential r B ts := by
  simp [potential]

theorem potential_cons (r : Nat → Nat) (B : Nat) (s : Nat) (q : List Nat) :
    potential r B (s :: q) = B ^ r s + potential r B q := by
  simp [potential]

theorem potential_targets_lt (r : Nat → Nat) (B : Nat) (hB : 1 ≤ B) (s : Nat)
    (ts : List Nat) (hts : ∀ t ∈ ts, r t < r s) (hlen : ts.length < B) :
    potential r B ts < B ^ r s := by
  cases ts with
  | nil =>
      simp only [potential, List.map_nil, List.sum_nil]
      exact pow_pos (by omega) _
  | cons t₀ ts' =>
      have hrs : 1 ≤ r s := by
        have := hts t₀ (List.mem_cons_self _ _)
        omega
      have hbound : ∀ x ∈ (t₀ :: ts').map (fun t => B ^ r t), x ≤ B ^ (r s - 1) := by
        intro x hx
        obtain ⟨t, ht, rfl⟩ := List.mem_map.mp hx
        exact Nat.pow_le_pow_right hB (by have := hts t ht; omega)
      have hsum := List.sum_le_card_nsmul _ _ hbound
      rw [List.length_map, smul_eq_mul] at hsum
      calc potential r B (t₀ :: ts')
          ≤ (t₀ :: ts').length * B ^ (r s - 1) := hsum
        _ < B * B ^ (r s - 1) :=
            mul_lt_mul_of_pos_right hlen (pow_pos (by omega) _)
        _ = B ^ r s := by
            rw [← pow_succ']
            congr 1
            omega

theorem potential_step_lt (r : Nat → Nat) (B : Nat) (hB : 1 ≤ B) (s : Nat)
    (q ts : List Nat) (hts : ∀ t ∈ ts, r t < r s) (hlen : ts.length < B) :
    potential r B (q ++ ts) < potential r B (s :: q) := by
  rw [potential_append, potential_cons]
  have := potential_targets_lt r B hB s ts hts hlen
  omega

theorem closureGo_nil (fuel : Nat) (g : Graph) (M : PyDict Nat (Finset ℤ)) :
    closureGo fuel g M [] = some (M, g) := by
  cases fuel <;> rfl

/-- the worklist empties within `potential` fuel, preserving the invariant. -/
theorem closureGo_run (g : Graph) (fr : PyDict Nat (Finset ℤ)) (r : Nat → Nat)
    (B : Nat) (hB : maxOut g < B) (hr : ∀ u v, EpsStep g u v → r v < r u) :
    ∀ (fuel : Nat) (M : PyDict Nat (Finset ℤ)) (q : List Nat),
      ClosInv g fr M q → potential r B q < fuel →
      ∃ M', closureGo fuel g M q = some (M', g) ∧ ClosInv g fr M' []
  | fuel, M, [] => fun inv _ => ⟨M, closureGo_nil fuel g M, inv⟩
  | 0, _, _ :: _ => fun _ hpot => absurd hpot (Nat.not_lt_zero _)
  | fuel + 1, M, s :: q => fun inv hpot => by
      rw [closureGo_succ]
      have hts : ∀ t ∈ labTargets g s Lab.eps, r t < r s := fun t ht => hr s t ht
      have hlen : (labTargets g s Lab.eps).length < B :=
        lt_of_le_of_lt (labTargets_length_le g s) hB
      have hdec : potential r B (q ++ labTargets g s Lab.eps)
          < potential r B (s :: q) :=
        potential_step_lt r B (by omega) s q _ hts hlen
      exact closureGo_run g fr r B hB hr fuel _ _ (closInv_step inv) (by omega)

/-- at an empty queue the invariant yields the least-fixpoint characterization. -/
theorem closInv_final {g : Graph} {fr M : PyDict Nat (Finset ℤ)}
    (inv : ClosInv g fr M []) :
    (∀ v, v ∈ PyDict.keys M ↔ ∃ u ∈ PyDict.keys fr, EpsReach g u v) ∧
    (∀ v S, PyDict.alookup M v = some S →
      ∀ m : ℤ, m ∈ S ↔
        ∃ u S₀, PyDict.alookup fr u = some S₀ ∧ m ∈ S₀ ∧ EpsReach g u v) := by
  have hclosed : ∀ v S, PyDict.alookup M v = some S →
      ∀ t ∈ labTargets g v Lab.eps, ∃ S', PyDict.alookup M t = some S' ∧ S ⊆ S' := by
    intro v S hvS
    rcases inv.closed v S hvS with h | h
    · exact absurd h (List.not_mem_nil v)
    · exact h
  have hreach_lookup : ∀ u S₀, PyDict.alookup fr u = some S₀ →
      ∀ v, EpsReach g u v → ∃ S, PyDict.alookup M v = some S ∧ S₀ ⊆ S := by
    intro u S₀ hu v hreach
    induction hreach with
    | refl => exact inv.grow u S₀ hu
    | tail _ hstep ih =>
        obtain ⟨Sw, hSw, hsub⟩ := ih
        obtain ⟨S', hS', hsub'⟩ := hclosed _ Sw hSw _ hstep
        exact ⟨S', hS', hsub.trans hsub'⟩
  constructor
  · intro v
    constructor
    · exact inv.sound_key v
    · rintro ⟨u, hu, hreach⟩
      obtain ⟨S₀, hS₀⟩ := Option.isSome_iff_exists.mp
        ((PyDict.alookup_isSome_iff_mem_keys fr u).2 hu)
      obtain ⟨S, hS, _⟩ := hreach_lookup u S₀ hS₀ v hreach
      exact (PyDict.alookup_isSome_iff_mem_keys M v).1 (by simp [hS])
  · intro v S hvS m
    constructor
    · exact inv.sound_val v S hvS m
    · rintro ⟨u, S₀, hu, hm, hreach⟩
      obtain ⟨S', hS', hsub⟩ := hreach_lookup u S₀ hu v hreach
      rw [hvS] at hS'
      cases hS'
      exact hsub hm

/-- C7: for every graph whose epsilon-only subgraph is acyclic and every
frontier dict, the `__closure` worklist terminates — despite unconditionally
re-enqueuing every epsilon target — with enough fuel, leaves the graph
untouched, and returns the dict whose keys are exactly the states
epsilon-reachable from the frontier, each carrying the union of the marker sets
of all frontier states that epsilon-reach it. -/
theorem closure_terminates_and_correct (g : Graph) (fr : PyDict Nat (Finset ℤ))
    (hacyc : EpsAcyclic g) (hnodup : (PyDict.keys fr).Nodup) :
    ∃ (fuel : Nat) (M' : PyDict Nat (Finset ℤ)),
      closure fuel g fr = some (M', g) ∧
      (∀ v, v ∈ PyDict.keys M' ↔ ∃ u ∈ PyDict.keys fr, EpsReach g u v) ∧
      (∀ v S, PyDict.alookup M' v = some S →
        ∀ m : ℤ, m ∈ S ↔
          ∃ u S₀, PyDict.alookup fr u = some S₀ ∧ m ∈ S₀ ∧ EpsReach g u v) := by
  obtain ⟨r, hr⟩ := hacyc
  have hinv : ClosInv g fr fr (PyDict.keys fr) := by
    refine ⟨hnodup, fun s hs => hs, ?_, ?_, ?_, ?_⟩
    · intro v hv
      exact ⟨v, hv, Relation.ReflTransGen.refl⟩
    · intro v S hvS m hm
      exact ⟨v, S, hvS, hm, Relation.ReflTransGen.refl⟩
    · intro u S₀ hu
      exact ⟨S₀, hu, subset_refl _⟩
    · intro v S hvS
      exact Or.inl ((PyDict.alookup_isSome_iff_mem_keys fr v).1 (by simp [hvS]))
  obtain ⟨M', hrun, hfin⟩ := closureGo_run g fr r (maxOut g + 1)
    (Nat.lt_succ_self _) hr
    (potential r (maxOut g + 1) (PyDict.keys fr) + 1) fr (PyDict.keys fr)
    hinv (Nat.lt_succ_self _)
  obtain ⟨hkeys, hvals⟩ := closInv_final hfin
  exact ⟨_, M', hrun, hkeys, hvals⟩

/-- C7 witness: the two-state graph `0 -ε-> 1` with frontier `{0: {3}}`,
ranked by `0 ↦ 1, _ ↦ 0`. -/
theorem closure_terminates_and_correct_witness :
    EpsAcyclic [[(Lab.eps, [1])], []] ∧
    (PyDict.keys [((0 : Nat), ({3} : Finset ℤ))]).Nodup ∧
    (∃ (fuel : Nat) (M' : PyDict Nat (Finset ℤ)),
      closure fuel [[(Lab.eps, [1])], []] [(0, ({3} : Finset ℤ))]
          = some (M', [[(Lab.eps, [1])], []]) ∧
      (∀ v, v ∈ PyDict.keys M' ↔
        ∃ u ∈ PyDict.keys [((0 : Nat), ({3} : Finset ℤ))],
          EpsReach [[(Lab.eps, [1])], []] u v) ∧
      (∀ v S, PyDict.alookup M' v = some S →
        ∀ m : ℤ, m ∈ S ↔
          ∃ u S₀, PyDict.alookup [((0 : Nat), ({3} : Finset ℤ))] u = some S₀ ∧
            m ∈ S₀ ∧ EpsReach [[(Lab.eps, [1])], []] u v)) := by
  have hacy : EpsAcyclic [[(Lab.eps, [1])], []] := by
    refine ⟨fun s => if s = 0 then 1 else 0, ?_⟩
    intro u v h
    unfold EpsStep at h
    match u with
    | 0 =>
        have hv : v = 1 := by
          simpa [labTargets, stTable, PyDict.alookup] using h
        subst hv
        simp
    | 1 =>
        exact absurd h (by simp [labTargets, stTable, PyDict.alookup])
    | n + 2 =>
        have hlen : ([[(Lab.eps, [1])], []] : Graph).length ≤ n + 2 := by
          simp only [List.length_cons, List.length_nil]
          omega
        rw [labTargets, stTable_ge _ _ hlen] at h
        exact absurd h (by simp [PyDict.alookup])
  exact ⟨hacy, by decide,
    closure_terminates_and_correct [[(Lab.eps, [1])], []]
      [(0, ({3} : Finset ℤ))] hacy (by decide)⟩

end Algotext
